import Mathlib

set_option maxRecDepth 2000

/-!
# Verification of the Chrome-Live-Screenshot bridge

Shallow embedding of the WebSocket bridge server (`src/ws-bridge.ts`), the
extension-side supervisor (`chrome-extension/offscreen.js`) and the tab
normalization/matching logic (`chrome-extension/background.js`), together with
proofs about the specified properties: per-request settle discipline, FIFO
queueing, retry caps and backoff arithmetic, response filtering, socket
finalization, admission checks, URL canonicalization and loopback conflation.

Conventions of the embedding:
* JavaScript numbers that are used as integers (ports, millisecond delays,
  attempt counters) are modelled as `Nat`.
* Fallible operations (`new URL`, normalizers) are modelled with `Option`.
* Event-driven code is modelled as explicit step functions over a state type;
  a trace is a `List` of events folded over the state.
* JS `Map` iteration order (insertion order, `set` on an existing key keeps
  its position) is modelled with association lists.
-/

namespace Bridge

/-! ## Retry backoff (`src/ws-bridge.ts` lines 46-52 and 406-416)

`retryDelay(attempt)` computes
`Math.min(MAX_RETRY_BACKOFF_MS, BASE_RETRY_BACKOFF_MS * 2 ** Math.max(0, attempt - 1))`
plus `Math.floor(Math.random() * retryJitterMaxMs)`.  `retryPending` calls it
with the *pre-increment* attempt counter (line 452), and the dispatch that
follows carries `attempt + 1` (line 470), so the delay waited before
dispatching attempt `n` is `retryBackoff (n - 1)` plus jitter. -/

def BASE_RETRY_BACKOFF_MS : Nat := 150

def MAX_RETRY_BACKOFF_MS : Nat := 2000

def MAX_ATTEMPTS : Nat := 3

def RETRY_JITTER_MAX_MS : Nat := 100

/-- The deterministic part of `retryDelay(attempt)`:
`min(MAX_RETRY_BACKOFF_MS, BASE_RETRY_BACKOFF_MS * 2 ^ max 0 (attempt - 1))`.
`Nat` subtraction coincides with `Math.max(0, attempt - 1)`. -/
def retryBackoff (attempt : Nat) : Nat :=
  min MAX_RETRY_BACKOFF_MS (BASE_RETRY_BACKOFF_MS * 2 ^ (attempt - 1))

/-- `Math.floor(Math.random() * retryJitterMaxMs)` where the random number is
the rational `num / den` with `num < den` (so it lies in `[0,1)`). -/
def jitterOf (num den : Nat) : Nat :=
  num * RETRY_JITTER_MAX_MS / den

/-- Total delay waited by `retryPending` before dispatching attempt `n`
(1-indexed): the backoff computed from the previous attempt `n - 1`, plus
jitter. -/
def delayBeforeAttempt (n jitter : Nat) : Nat :=
  retryBackoff (n - 1) + jitter

/-- Modelled from the spec's words (for comparison with the code):
"Delay before attempt `n` (1-indexed) is
`min(MAX_RETRY_BACKOFF_MS, BASE_RETRY_BACKOFF_MS * 2^(n-1)) + uniform(0, retryJitterMaxMs)`". -/
def specDelayBeforeAttempt (n jitter : Nat) : Nat :=
  min MAX_RETRY_BACKOFF_MS (BASE_RETRY_BACKOFF_MS * 2 ^ (n - 1)) + jitter

/-- **C4, counterexample.**  The claim's formula gives `300 + jitter` before
attempt 2, but the code waits only `150 + jitter`: `retryPending` passes the
pre-increment attempt counter (1) to `retryDelay`, whose exponent is
`attempt - 1 = 0`. -/
theorem c4_delay_counterexample :
    delayBeforeAttempt 2 0 = 150 ∧ specDelayBeforeAttempt 2 0 = 300 ∧
      delayBeforeAttempt 2 0 ≠ specDelayBeforeAttempt 2 0 := by
  refine ⟨rfl, rfl, ?_⟩
  decide

/-- **C4, amended.**  For every retried request, the delay before dispatching
attempt `n` (1-indexed, `n ≥ 2`) equals
`min(MAX_RETRY_BACKOFF_MS, BASE_RETRY_BACKOFF_MS * 2^(n-2))` plus a jitter
value `Math.floor(r * retryJitterMaxMs)` that lies in `[0, retryJitterMaxMs)`
for every random `r = num/den ∈ [0,1)`, with `BASE = 150`, `MAX = 2000` and
default jitter bound `100` ms. -/
theorem c4_delay_formula (n num den : Nat) (hn : 2 ≤ n) (hden : num < den) :
    delayBeforeAttempt n (jitterOf num den) =
      min MAX_RETRY_BACKOFF_MS (BASE_RETRY_BACKOFF_MS * 2 ^ (n - 2)) +
        jitterOf num den ∧
      jitterOf num den < RETRY_JITTER_MAX_MS := by
  constructor
  · unfold delayBeforeAttempt retryBackoff
    have h : n - 1 - 1 = n - 2 := by omega
    rw [h]
  · unfold jitterOf RETRY_JITTER_MAX_MS
    have hdpos : 0 < den := Nat.lt_of_le_of_lt (Nat.zero_le num) hden
    rw [Nat.div_lt_iff_lt_mul hdpos]
    calc num * 100 < den * 100 := by
          exact Nat.mul_lt_mul_of_lt_of_le hden (le_refl 100) (by norm_num)
      _ = 100 * den := Nat.mul_comm den 100

/-- Witness for `c4_delay_formula` at `n = 3`, random `= 1/2`. -/
theorem c4_delay_formula_witness :
    delayBeforeAttempt 3 (jitterOf 1 2) =
      min MAX_RETRY_BACKOFF_MS (BASE_RETRY_BACKOFF_MS * 2 ^ (3 - 2)) +
        jitterOf 1 2 ∧
      jitterOf 1 2 < RETRY_JITTER_MAX_MS :=
  c4_delay_formula 3 1 2 (by decide) (by decide)

/-! ## Dispatcher state and `start()` (`src/ws-bridge.ts` lines 67-126)

The fields of `WsBridge` that `start()` can read or write.  Client keys are
`Nat`, request ids are `String`.  A `Pending` record keeps the fields the
response handler consults. -/

structure PendingRec where
  clientKey : Nat
  attempt : Nat
  maxAttempts : Nat
  deriving DecidableEq, Repr

structure BridgeState where
  wss : Option Nat
  clients : List Nat
  rrClientKeys : List Nat
  rrCursor : Nat
  pending : List (String × PendingRec)
  pendingByClient : List (Nat × List String)
  pingOn : Bool
  deriving DecidableEq, Repr

/-- Environment outcome of trying to bind the TCP listener. -/
inductive BindEnv where
  | ok (listener : Nat)
  | err
  deriving DecidableEq, Repr

/-- Result of a `start()` call, as observed by the caller. -/
inductive StartResult where
  | alreadyStarted
  | bound (listener : Nat)
  | failed
  deriving DecidableEq, Repr

/-- `start()` (lines 95-126): `if (this.wss) return Promise.resolve();`
otherwise bind a new `WebSocketServer`; on bind error the server handle is
cleared again and the promise rejects. -/
def startBridge (st : BridgeState) (env : BindEnv) : BridgeState × StartResult :=
  match st.wss with
  | some _ => (st, .alreadyStarted)
  | none =>
    match env with
    | .ok l => ({ st with wss := some l }, .bound l)
    | .err => (st, .failed)

/-- **C9.**  `start()` is idempotent at the public interface: when the
listener already exists, a second `start()` resolves immediately, binds no
listener (the result is `alreadyStarted`, not `bound`), and leaves every
field of the dispatcher state — client table, round-robin order and cursor,
pending table, per-client index, heartbeat flag — unchanged. -/
theorem c9_start_idempotent (st : BridgeState) (l : Nat) (env : BindEnv)
    (h : st.wss = some l) :
    startBridge st env = (st, .alreadyStarted) := by
  unfold startBridge
  rw [h]

/-- Witness for `c9_start_idempotent` on a concrete started state. -/
theorem c9_start_idempotent_witness :
    startBridge
        { wss := some 1, clients := [2], rrClientKeys := [2], rrCursor := 0,
          pending := [], pendingByClient := [], pingOn := true }
        (.ok 9) =
      ({ wss := some 1, clients := [2], rrClientKeys := [2], rrCursor := 0,
         pending := [], pendingByClient := [], pingOn := true },
        .alreadyStarted) :=
  c9_start_idempotent _ 1 (.ok 9) rfl

/-! ## Response handling (`src/ws-bridge.ts` lines 211-231)

On a `res` frame the dispatcher looks the id up in the pending table, drops
the frame unless the record's client key equals the key of the socket it
arrived on, and otherwise detaches the record and resolves / retries /
rejects. -/

/-- Association-list lookup, mirroring `Map.get`. -/
def alistGet (l : List (String × PendingRec)) (id : String) : Option PendingRec :=
  match l.find? (fun p => p.1 = id) with
  | some p => some p.2
  | none => none

/-- `Map.delete` on the pending table. -/
def alistDelete (l : List (String × PendingRec)) (id : String) :
    List (String × PendingRec) :=
  l.filter (fun p => p.1 ≠ id)

/-- `removePendingFromClient` (lines 279-284). -/
def removePendingFromClient (idx : List (Nat × List String)) (clientKey : Nat)
    (id : String) : List (Nat × List String) :=
  (idx.map (fun e => if e.1 = clientKey then (e.1, e.2.filter (· ≠ id)) else e)).filter
    (fun e => e.2 ≠ [])

/-- What the response handler does with the matched pending record. -/
inductive ResAction where
  | resolve
  | retry
  | reject
  deriving DecidableEq, Repr

/-- The `res` branch of `onConnection` (lines 211-231): `key` is the socket's
client key, `ok` the frame's `ok` field, `retryable` the (type-checked)
`error.retryable` field.  Returns the new dispatcher state and the action
taken on the pending record, `none` when the frame is dropped. -/
def handleRes (st : BridgeState) (key : Nat) (id : String) (ok : Bool)
    (retryable : Option Bool) : BridgeState × Option ResAction :=
  match alistGet st.pending id with
  | none => (st, none)
  | some p =>
    if p.clientKey ≠ key then (st, none)
    else
      let st' := { st with
        pending := alistDelete st.pending id,
        pendingByClient := removePendingFromClient st.pendingByClient p.clientKey id }
      if ok then (st', some .resolve)
      else if retryable = some true ∧ p.attempt < p.maxAttempts then (st', some .retry)
      else (st', some .reject)

/-- **C5.**  A `res` frame settles (or retries) a pending request only when
both its id matches a recorded pending request and that record's client key
equals the key of the socket the frame arrived on; a `res` for a known id
arriving on any other socket — and a `res` for an unknown id — is dropped
with no effect on dispatcher state. -/
theorem c5_res_requires_id_and_key (st : BridgeState) (key : Nat) (id : String)
    (ok : Bool) (retryable : Option Bool) :
    ((handleRes st key id ok retryable).2.isSome →
      ∃ p, alistGet st.pending id = some p ∧ p.clientKey = key) ∧
    (∀ p, alistGet st.pending id = some p → p.clientKey ≠ key →
      handleRes st key id ok retryable = (st, none)) ∧
    (alistGet st.pending id = none →
      handleRes st key id ok retryable = (st, none)) := by
  refine ⟨?_, ?_, ?_⟩
  · intro hsome
    unfold handleRes at hsome
    cases hget : alistGet st.pending id with
    | none => rw [hget] at hsome; simp at hsome
    | some p =>
      rw [hget] at hsome
      by_cases hk : p.clientKey = key
      · exact ⟨p, rfl, hk⟩
      · simp only [hk, ne_eq, not_false_eq_true, if_true] at hsome
        simp at hsome
  · intro p hget hk
    unfold handleRes
    rw [hget]
    simp [hk]
  · intro hget
    unfold handleRes
    rw [hget]

/-- Witness for `c5_res_requires_id_and_key`: a stale `res` for a known id on
a replaced socket (key 5 instead of the recorded 4) is dropped without
touching the state. -/
theorem c5_res_requires_id_and_key_witness :
    handleRes
        { wss := some 1, clients := [4, 5], rrClientKeys := [4, 5], rrCursor := 0,
          pending := [("a", { clientKey := 4, attempt := 1, maxAttempts := 3 })],
          pendingByClient := [(4, ["a"])], pingOn := true }
        5 "a" true none =
      ({ wss := some 1, clients := [4, 5], rrClientKeys := [4, 5], rrCursor := 0,
         pending := [("a", { clientKey := 4, attempt := 1, maxAttempts := 3 })],
         pendingByClient := [(4, ["a"])], pingOn := true },
        none) :=
  (c5_res_requires_id_and_key _ 5 "a" true none).2.1
    { clientKey := 4, attempt := 1, maxAttempts := 3 } (by decide) (by decide)

/-! ## Per-request lifecycle of a `call()` (`src/ws-bridge.ts` lines 443-557)

The events that can touch one pending record, projected onto that single
request.  Modes:

* `dispatching` — `dispatchPending` entered for the current attempt
  (lines 477-529);
* `awaiting` — the record is in the `pending` map with an armed per-call
  timer, attached to `clientKey` (lines 506-519);
* `retryWaiting` — the record has been detached and `retryPending` is past
  its attempt guard, sleeping through the backoff and the
  `waitForConnectedClient` window (lines 443-462);
* `resolvedDone` / `rejectedDone` — one of the promise handlers has run.

`retryEntry` models the head of `retryPending` (lines 444-450): reject when
the attempt budget is spent, otherwise enter the wait.  The counters record
every invocation of `resolve`, `reject` and every `ws.send` of the `cmd`
frame (a throwing send still counts as a write attempt), plus every entry
into `dispatchPending`. -/

inductive PMode where
  | dispatching
  | awaiting
  | retryWaiting
  | resolvedDone
  | rejectedDone
  deriving DecidableEq, Repr

structure PState where
  mode : PMode
  attempt : Nat
  clientKey : Nat
  resolves : Nat
  rejects : Nat
  sends : Nat
  dispatches : Nat
  deriving DecidableEq, Repr

/-- Events that can touch the pending record.  Socket/client keys carried by
an event identify which socket it concerns; events for other requests or
other sockets are no-ops by the guards below. -/
inductive PEvent where
  /-- `ws.send` of the cmd frame succeeds (lines 515-519). -/
  | sendOk
  /-- `ws.send` throws; the record is detached and retried (lines 520-528). -/
  | sendFail
  /-- the selected client is missing or not OPEN at dispatch (lines 482-488). -/
  | clientGone
  /-- `res` frame with `ok=true` arriving on socket `k` (lines 211-221). -/
  | resOk (k : Nat)
  /-- `res` frame with `ok=false` and the given `retryable` flag (222-229). -/
  | resErr (k : Nat) (retryable : Bool)
  /-- the per-call timer fires (lines 490-504). -/
  | timerFire
  /-- `removeClient k` runs: socket close/error or heartbeat timeout
  (lines 286-316). -/
  | clientRemoved (k : Nat)
  /-- `stop()` / `failAllPending` rejects everything in the pending map
  (lines 318-325). -/
  | stopServer
  /-- `waitForConnectedClient` returns client `k` (lines 454, 463-474). -/
  | retryFound (k : Nat)
  /-- `waitForConnectedClient` returns null (lines 455-461). -/
  | retryNoClient
  deriving DecidableEq, Repr

def settleResolve (s : PState) : PState :=
  { s with mode := .resolvedDone, resolves := s.resolves + 1 }

def settleReject (s : PState) : PState :=
  { s with mode := .rejectedDone, rejects := s.rejects + 1 }

/-- Head of `retryPending` (lines 444-450): reject when
`attempt >= maxAttempts`, otherwise sleep (enter `retryWaiting`). -/
def retryEntry (s : PState) : PState :=
  if MAX_ATTEMPTS ≤ s.attempt then settleReject s
  else { s with mode := .retryWaiting }

/-- One event against the per-request state.  Settled modes are absorbing:
the id is no longer in the `pending` map, so every handler's
`pending.get(id)` guard drops the event. -/
def pstep (s : PState) (e : PEvent) : PState :=
  match s.mode, e with
  | .dispatching, .sendOk => { s with mode := .awaiting, sends := s.sends + 1 }
  | .dispatching, .sendFail => retryEntry { s with sends := s.sends + 1 }
  | .dispatching, .clientGone => retryEntry s
  | .awaiting, .resOk k => if k = s.clientKey then settleResolve s else s
  | .awaiting, .resErr k r =>
    if k = s.clientKey then
      if r ∧ s.attempt < MAX_ATTEMPTS then { s with mode := .retryWaiting }
      else settleReject s
    else s
  | .awaiting, .timerFire => retryEntry s
  | .awaiting, .clientRemoved k =>
    if k = s.clientKey then
      if s.attempt < MAX_ATTEMPTS then { s with mode := .retryWaiting }
      else settleReject s
    else s
  | .awaiting, .stopServer => settleReject s
  | .retryWaiting, .retryFound k =>
    { s with mode := .dispatching, clientKey := k, attempt := s.attempt + 1,
             dispatches := s.dispatches + 1 }
  | .retryWaiting, .retryNoClient => settleReject s
  | _, _ => s

/-- `call()` (lines 531-557): the record starts at attempt 1 attached to the
round-robin-selected client `k0`, and `dispatchPending` is invoked. -/
def pinit (k0 : Nat) : PState :=
  { mode := .dispatching, attempt := 1, clientKey := k0,
    resolves := 0, rejects := 0, sends := 0, dispatches := 1 }

def prun (k0 : Nat) (evs : List PEvent) : PState :=
  evs.foldl pstep (pinit k0)

def PState.settled (s : PState) : Prop :=
  s.mode = .resolvedDone ∨ s.mode = .rejectedDone

instance (s : PState) : Decidable s.settled := by
  unfold PState.settled
  infer_instance

/-- The inductive invariant of the per-request machine. -/
def PInv (s : PState) : Prop :=
  (s.resolves + s.rejects = if s.settled then 1 else 0) ∧
  (match s.mode with
   | .dispatching => s.sends + 1 ≤ s.attempt ∧ s.attempt ≤ MAX_ATTEMPTS ∧
       s.dispatches = s.attempt
   | .awaiting => s.sends ≤ s.attempt ∧ s.attempt ≤ MAX_ATTEMPTS ∧
       s.dispatches = s.attempt
   | .retryWaiting => s.sends ≤ s.attempt ∧ s.attempt < MAX_ATTEMPTS ∧
       s.dispatches = s.attempt
   | _ => s.sends ≤ MAX_ATTEMPTS ∧ s.dispatches ≤ MAX_ATTEMPTS ∧
       s.attempt ≤ MAX_ATTEMPTS)

theorem pinv_init (k0 : Nat) : PInv (pinit k0) := by
  unfold PInv pinit PState.settled MAX_ATTEMPTS
  simp

theorem pinv_step (s : PState) (e : PEvent) (h : PInv s) : PInv (pstep s e) := by
  obtain ⟨hcnt, hrest⟩ := h
  have hM : MAX_ATTEMPTS = 3 := rfl
  cases hm : s.mode <;> cases e <;>
    simp_all [pstep, retryEntry, settleResolve, settleReject, PInv,
      PState.settled, hM] <;>
    first
      | omega
      | (split_ifs <;> simp_all <;> omega)

theorem pinv_foldl (s : PState) (evs : List PEvent) (h : PInv s) :
    PInv (evs.foldl pstep s) := by
  induction evs generalizing s with
  | nil => exact h
  | cons e l ih => exact ih _ (pinv_step s e h)

theorem pinv_run (k0 : Nat) (evs : List PEvent) : PInv (prun k0 evs) :=
  pinv_foldl _ evs (pinv_init k0)

/-- Settled states are absorbing: every later event is a no-op. -/
theorem pstep_settled (s : PState) (e : PEvent) (h : s.settled) : pstep s e = s := by
  rcases h with h | h <;> rw [pstep.eq_def, h]

/-- From every state satisfying the invariant there is a sequence of events
that settles the request (so a fair execution settles it). -/
theorem psettle_exists (s : PState) (_ : PInv s) :
    ∃ evs : List PEvent, (evs.foldl pstep s).settled := by
  cases hm : s.mode
  case dispatching =>
    by_cases hmax : MAX_ATTEMPTS ≤ s.attempt
    · refine ⟨[.clientGone], ?_⟩
      simp [pstep, hm, retryEntry, hmax, settleReject, PState.settled]
    · refine ⟨[.clientGone, .retryNoClient], ?_⟩
      simp [pstep, hm, retryEntry, hmax, settleReject, PState.settled]
  case awaiting =>
    exact ⟨[.stopServer], by simp [pstep, hm, settleReject, PState.settled]⟩
  case retryWaiting =>
    exact ⟨[.retryNoClient], by simp [pstep, hm, settleReject, PState.settled]⟩
  case resolvedDone => exact ⟨[], Or.inl hm⟩
  case rejectedDone => exact ⟨[], Or.inr hm⟩

/-- **C1.**  For every `call()` and every sequence of events touching its
pending record (res frames, timer expiry, client removal, retry scheduling,
send failure, `stop()`):
1. the resolve/reject handlers run at most once in total, and exactly once
   when the request has settled;
2. every event arriving after settlement — in particular a `res` frame for
   that id — is ignored (the state is unchanged);
3. some continuation of the trace settles the request, at which point
   exactly one of resolve/reject has run exactly once. -/
theorem c1_settle_exactly_once (k0 : Nat) (evs : List PEvent) :
    ((prun k0 evs).resolves + (prun k0 evs).rejects ≤ 1 ∧
      ((prun k0 evs).settled ↔ (prun k0 evs).resolves + (prun k0 evs).rejects = 1)) ∧
    (∀ e, (prun k0 evs).settled → pstep (prun k0 evs) e = prun k0 evs) ∧
    (∃ more, (prun k0 (evs ++ more)).resolves + (prun k0 (evs ++ more)).rejects = 1) := by
  have hinv := pinv_run k0 evs
  obtain ⟨hcnt, -⟩ := hinv
  refine ⟨⟨?_, ?_, ?_⟩, ?_, ?_⟩
  · rw [hcnt]
    split <;> omega
  · intro h
    rw [hcnt, if_pos h]
  · intro h
    by_contra hs
    rw [if_neg hs] at hcnt
    omega
  · intro e h
    exact pstep_settled _ e h
  · obtain ⟨more, hmore⟩ := psettle_exists (prun k0 evs) (pinv_run k0 evs)
    refine ⟨more, ?_⟩
    have heq : prun k0 (evs ++ more) = more.foldl pstep (prun k0 evs) := by
      unfold prun
      rw [List.foldl_append]
    rw [heq]
    obtain ⟨hcnt', -⟩ := pinv_foldl (prun k0 evs) more (pinv_run k0 evs)
    rw [hcnt', if_pos hmore]

/-- Witness for `c1_settle_exactly_once` on the trace
"dispatch, send ok, matching `res ok=true`": the request settles with one
resolution, and a straggling `res` frame for the same id afterwards is
ignored. -/
theorem c1_settle_exactly_once_witness :
    (prun 7 [.sendOk, .resOk 7]).settled ∧
      (prun 7 [.sendOk, .resOk 7]).resolves + (prun 7 [.sendOk, .resOk 7]).rejects = 1 ∧
      pstep (prun 7 [.sendOk, .resOk 7]) (.resOk 7) = prun 7 [.sendOk, .resOk 7] :=
  ⟨by decide,
    ((c1_settle_exactly_once 7 [.sendOk, .resOk 7]).1.2).mp (by decide),
    (c1_settle_exactly_once 7 [.sendOk, .resOk 7]).2.1 (.resOk 7) (by decide)⟩

/-- **C3.**  For every `call()` and every combination of retry triggers, the
`cmd` frame is written to a client socket at most `MAX_ATTEMPTS = 3` times,
and the retry recursion terminates: `dispatchPending` is entered at most
`MAX_ATTEMPTS` times because the attempt counter strictly increases on every
retry dispatch and never exceeds `MAX_ATTEMPTS`. -/
theorem c3_retry_cap (k0 : Nat) (evs : List PEvent) :
    (prun k0 evs).sends ≤ MAX_ATTEMPTS ∧
      (prun k0 evs).dispatches ≤ MAX_ATTEMPTS ∧
      (prun k0 evs).attempt ≤ MAX_ATTEMPTS := by
  have hinv := pinv_run k0 evs
  obtain ⟨-, hrest⟩ := hinv
  rcases hm : (prun k0 evs).mode <;> rw [hm] at hrest <;>
    simp only at hrest <;> omega

/-- Witness for `c3_retry_cap` on a trace that exhausts all three attempts:
every dispatch times out, the final retry entry rejects at the cap. -/
theorem c3_retry_cap_witness :
    (prun 7 [.sendOk, .timerFire, .retryFound 8, .sendOk, .timerFire,
        .retryFound 9, .sendOk, .timerFire]).sends ≤ MAX_ATTEMPTS ∧
      (prun 7 [.sendOk, .timerFire, .retryFound 8, .sendOk, .timerFire,
        .retryFound 9, .sendOk, .timerFire]).dispatches ≤ MAX_ATTEMPTS ∧
      (prun 7 [.sendOk, .timerFire, .retryFound 8, .sendOk, .timerFire,
        .retryFound 9, .sendOk, .timerFire]).attempt ≤ MAX_ATTEMPTS :=
  c3_retry_cap 7 _

end Bridge

namespace Supervisor

/-! ## The supervisor's global FIFO queue (`chrome-extension/offscreen.js`
lines 28-32, 444-505, 507-548)

`processQueue` is the single worker: `queueRunning` guards re-entry, the
worker `shift()`s one item at a time and `await`s `sendToBackground` before
looking at the next item.  `enqueueCommand` pushes admitted items at the
tail and kicks the worker.  We model the interleaving of enqueues (messages
arriving on any socket) with the worker's suspension points.

State of the worker:
* `idle` — `queueRunning === false`;
* `looping` — inside the `while` loop, between items;
* `awaitingOp id` — suspended in `await sendToBackground(...)` for item `id`.

The `ops` log records every browser-operation invocation (`opStart`) and its
completion (`opEnd`); `popped` records the ids shifted off the queue in
order; `admitted` records the ids pushed, in arrival order. -/

inductive Worker where
  | idle
  | looping
  | awaitingOp (id : Nat)
  deriving DecidableEq, Repr

inductive OpEv where
  | opStart (id : Nat)
  | opEnd (id : Nat)
  deriving DecidableEq, Repr

structure QState where
  queue : List Nat
  worker : Worker
  ops : List OpEv
  popped : List Nat
  admitted : List Nat
  deriving DecidableEq, Repr

/-- Events of the queue machine.

* `enqueue id` — `enqueueCommand` admitted a `cmd` (lines 536-547): push at
  the tail, then `void processQueue()`, which sets `queueRunning` and enters
  the loop unless the worker is already running.
* `loopSkip` — the worker shifted an item whose socket is gone or whose
  deadline passed (lines 451-476): no browser operation runs.
* `loopExec` — the worker shifted an item and invoked
  `sendToBackground` (lines 477-483): a browser operation starts.
* `opDone` — the awaited browser operation finished (the response is sent
  and the loop continues, lines 484-500).
* `loopExit` — the queue is empty, the worker leaves the loop and clears
  `queueRunning` (lines 448, 502-504). -/
inductive QEvent where
  | enqueue (id : Nat)
  | loopSkip
  | loopExec
  | opDone
  | loopExit
  deriving DecidableEq, Repr

def qstep (s : QState) (e : QEvent) : QState :=
  match e with
  | .enqueue id =>
    let s' := { s with queue := s.queue ++ [id], admitted := s.admitted ++ [id] }
    match s.worker with
    | .idle => { s' with worker := .looping }
    | _ => s'
  | .loopSkip =>
    match s.worker, s.queue with
    | .looping, id :: rest =>
      { s with queue := rest, popped := s.popped ++ [id] }
    | _, _ => s
  | .loopExec =>
    match s.worker, s.queue with
    | .looping, id :: rest =>
      { s with queue := rest, popped := s.popped ++ [id],
               worker := .awaitingOp id, ops := s.ops ++ [.opStart id] }
    | _, _ => s
  | .opDone =>
    match s.worker with
    | .awaitingOp id => { s with worker := .looping, ops := s.ops ++ [.opEnd id] }
    | _ => s
  | .loopExit =>
    match s.worker, s.queue with
    | .looping, [] => { s with worker := .idle }
    | _, _ => s

def qinit : QState :=
  { queue := [], worker := .idle, ops := [], popped := [], admitted := [] }

def qrun (evs : List QEvent) : QState :=
  evs.foldl qstep qinit

/-- A fully matched operation log: a sequence of adjacent
`opStart i, opEnd i` pairs. -/
inductive SerialOps : List OpEv → Prop
  | nil : SerialOps []
  | pair (i : Nat) (l : List OpEv) (h : SerialOps l) :
      SerialOps (.opStart i :: .opEnd i :: l)

theorem serialOps_snoc_pair (l : List OpEv) (i : Nat) (h : SerialOps l) :
    SerialOps (l ++ [.opStart i, .opEnd i]) := by
  induction h with
  | nil => exact SerialOps.pair i [] SerialOps.nil
  | pair j m _ ih => exact SerialOps.pair j _ ih

/-- Number of `opStart` entries in a log. -/
def startCount (l : List OpEv) : Nat :=
  (l.filter (fun e => match e with | .opStart _ => true | _ => false)).length

/-- Number of `opEnd` entries in a log. -/
def endCount (l : List OpEv) : Nat :=
  (l.filter (fun e => match e with | .opEnd _ => true | _ => false)).length

/-- The queue-machine invariant: the log is serial (with at most one open
operation, the one the worker is awaiting), pops happen in admission order,
and the begun operations are the executed subset of the pops. -/
def QInv (s : QState) : Prop :=
  (match s.worker with
   | .awaitingOp i => ∃ l, SerialOps l ∧ s.ops = l ++ [.opStart i]
   | _ => SerialOps s.ops) ∧
  s.admitted = s.popped ++ s.queue ∧
  (startedIds s.ops).Sublist s.popped
where
  /-- Ids of the operations started, in order. -/
  startedIds (l : List OpEv) : List Nat :=
    l.filterMap (fun e => match e with | .opStart i => some i | _ => none)

theorem startedIds_append (l m : List OpEv) :
    QInv.startedIds (l ++ m) = QInv.startedIds l ++ QInv.startedIds m := by
  unfold QInv.startedIds
  rw [List.filterMap_append]

theorem qinv_init : QInv qinit := by
  refine ⟨SerialOps.nil, rfl, ?_⟩
  simp [QInv.startedIds, qinit]

theorem qinv_step (s : QState) (e : QEvent) (h : QInv s) : QInv (qstep s e) := by
  obtain ⟨q, w, ops, pop, adm⟩ := s
  obtain ⟨hser, hfifo, hsub⟩ := h
  dsimp only at hser hfifo hsub
  cases e with
  | enqueue id =>
    cases w with
    | idle => exact ⟨hser, by dsimp only [qstep]; rw [hfifo, List.append_assoc], hsub⟩
    | looping => exact ⟨hser, by dsimp only [qstep]; rw [hfifo, List.append_assoc], hsub⟩
    | awaitingOp j => exact ⟨hser, by dsimp only [qstep]; rw [hfifo, List.append_assoc], hsub⟩
  | loopSkip =>
    cases w with
    | idle => exact ⟨hser, hfifo, hsub⟩
    | awaitingOp j => exact ⟨hser, hfifo, hsub⟩
    | looping =>
      cases q with
      | nil => exact ⟨hser, hfifo, hsub⟩
      | cons id rest =>
        exact ⟨hser, by dsimp only [qstep]; rw [hfifo]; simp,
          hsub.trans (List.sublist_append_left pop [id])⟩
  | loopExec =>
    cases w with
    | idle => exact ⟨hser, hfifo, hsub⟩
    | awaitingOp j => exact ⟨hser, hfifo, hsub⟩
    | looping =>
      cases q with
      | nil => exact ⟨hser, hfifo, hsub⟩
      | cons id rest =>
        refine ⟨⟨ops, hser, rfl⟩, by dsimp only [qstep]; rw [hfifo]; simp, ?_⟩
        show (QInv.startedIds (ops ++ [OpEv.opStart id])).Sublist (pop ++ [id])
        rw [startedIds_append]
        exact List.Sublist.append hsub (List.Sublist.refl _)
  | opDone =>
    cases w with
    | idle => exact ⟨hser, hfifo, hsub⟩
    | looping => exact ⟨hser, hfifo, hsub⟩
    | awaitingOp i =>
      obtain ⟨l, hl, hops⟩ := hser
      refine ⟨?_, hfifo, ?_⟩
      · show SerialOps (ops ++ [OpEv.opEnd i])
        rw [hops, List.append_assoc]
        exact serialOps_snoc_pair l i hl
      · show (QInv.startedIds (ops ++ [OpEv.opEnd i])).Sublist pop
        rw [startedIds_append]
        simpa [QInv.startedIds] using hsub
  | loopExit =>
    cases w with
    | idle => exact ⟨hser, hfifo, hsub⟩
    | awaitingOp j => exact ⟨hser, hfifo, hsub⟩
    | looping =>
      cases q with
      | nil => exact ⟨hser, hfifo, hsub⟩
      | cons id rest => exact ⟨hser, hfifo, hsub⟩

theorem qinv_run (evs : List QEvent) : QInv (qrun evs) := by
  unfold qrun
  have h : ∀ (l : List QEvent) (s : QState), QInv s → QInv (l.foldl qstep s) := by
    intro l
    induction l with
    | nil => exact fun s h => h
    | cons e t ih => exact fun s h => ih _ (qinv_step s e h)
  exact h evs qinit qinv_init

theorem serialOps_counts (l : List OpEv) (h : SerialOps l) :
    startCount l = endCount l := by
  induction h with
  | nil => rfl
  | pair i m _ ih =>
    unfold startCount endCount at ih ⊢
    simp [ih]

theorem serialOps_take_balanced (l : List OpEv) (h : SerialOps l) (n : Nat) :
    endCount (l.take n) ≤ startCount (l.take n) ∧
      startCount (l.take n) ≤ endCount (l.take n) + 1 := by
  induction h generalizing n with
  | nil => simp [startCount, endCount]
  | pair i m hm ih =>
    match n with
    | 0 => simp [startCount, endCount]
    | 1 => simp [startCount, endCount, List.take_succ_cons]
    | Nat.succ (Nat.succ k) =>
      have hk := ih k
      unfold startCount endCount at hk ⊢
      simp [List.take_succ_cons]
      omega

/-- Balance also holds when the log ends with one unmatched `opStart` (a
browser operation still in flight). -/
theorem serialOpen_take_balanced (l : List OpEv) (i : Nat) (h : SerialOps l)
    (n : Nat) :
    endCount ((l ++ [OpEv.opStart i]).take n) ≤
      startCount ((l ++ [OpEv.opStart i]).take n) ∧
      startCount ((l ++ [OpEv.opStart i]).take n) ≤
        endCount ((l ++ [OpEv.opStart i]).take n) + 1 := by
  by_cases hn : n ≤ l.length
  · rw [List.take_append_of_le_length hn]
    exact serialOps_take_balanced l h n
  · have hfull : (l ++ [OpEv.opStart i]).take n = l ++ [OpEv.opStart i] := by
      apply List.take_of_length_le
      simp only [List.length_append, List.length_cons, List.length_nil]
      omega
    rw [hfull]
    have hcounts := serialOps_counts l h
    unfold startCount endCount at hcounts ⊢
    simp [hcounts]

/-- **C2.**  For every sequence of events of the supervisor's queue machine
(admitted `cmd` frames from any socket interleaved with worker steps):
1. pops happen in exact enqueue (FIFO) order: the admitted ids are always the
   popped ids (in order) followed by the ids still queued (in order);
2. the browser operations that actually start do so in enqueue order (their
   id sequence is an order-preserving subsequence of the admitted ids);
3. at most one browser-operation invocation is in flight at any instant: in
   every prefix of the operation log, the number of started operations
   exceeds the number of completed ones by at most one, and no operation
   completes before it starts — so a later item never begins before the
   previous item's browser operation has completed. -/
theorem c2_fifo_single_flight (evs : List QEvent) :
    (qrun evs).admitted = (qrun evs).popped ++ (qrun evs).queue ∧
    (QInv.startedIds (qrun evs).ops).Sublist (qrun evs).admitted ∧
    (∀ n, endCount ((qrun evs).ops.take n) ≤ startCount ((qrun evs).ops.take n) ∧
      startCount ((qrun evs).ops.take n) ≤ endCount ((qrun evs).ops.take n) + 1) := by
  obtain ⟨hser, hfifo, hsub⟩ := qinv_run evs
  refine ⟨hfifo, ?_, ?_⟩
  · rw [hfifo]
    exact hsub.trans (List.sublist_append_left _ _)
  · intro n
    rcases hw : (qrun evs).worker with _ | _ | i <;> rw [hw] at hser
    · exact serialOps_take_balanced _ hser n
    · exact serialOps_take_balanced _ hser n
    · obtain ⟨l, hl, hops⟩ := hser
      rw [hops]
      exact serialOpen_take_balanced l i hl n

/-! ## Supervisor tables and admission (`chrome-extension/offscreen.js`
lines 10-14, 26-31, 357-442, 507-548)

Socket-session keys are `Nat`, request ids are `String`.
`recentlyCompletedIds` is a JS `Map` (insertion-ordered; `set` on an existing
key keeps its position and updates the value), modelled as an association
list; `activeRequestIds` is a JS `Set`, modelled as a duplicate-free-by-use
list; `pendingBySocketKey` maps socket keys to sets of ids. -/

def MAX_GLOBAL_QUEUE_SIZE : Nat := 200

def COMPLETED_ID_TTL_MS : Nat := 2 * 60 * 1000

def COMPLETED_ID_MAX : Nat := 2000

structure OffItem where
  socketKey : Nat
  id : String
  deriving DecidableEq, Repr

structure OffState where
  socketStates : List Nat
  pendingQueue : List OffItem
  pendingBySocketKey : List (Nat × List String)
  activeRequestIds : List String
  recentlyCompletedIds : List (String × Nat)
  deriving DecidableEq, Repr

/-- `recentlyCompletedIds.has(id)`. -/
def completedHas (m : List (String × Nat)) (id : String) : Bool :=
  m.any (fun p => p.1 = id)

/-- `recentlyCompletedIds.set(id, ts)`: update in place (all stale duplicates
included), or append at the end of the insertion order. -/
def completedSet (m : List (String × Nat)) (id : String) (ts : Nat) :
    List (String × Nat) :=
  if completedHas m id then
    m.map (fun p => if p.1 = id then (p.1, ts) else p)
  else m ++ [(id, ts)]

/-- The TTL sweep of `pruneCompletedRequestIds` (lines 358-362): drop entries
with `now - ts > COMPLETED_ID_TTL_MS`. -/
def pruneTTL (m : List (String × Nat)) (now : Nat) : List (String × Nat) :=
  m.filter (fun p => now - p.2 ≤ COMPLETED_ID_TTL_MS)

/-- The size sweep of `pruneCompletedRequestIds` (lines 363-367): while more
than `COMPLETED_ID_MAX` entries remain, evict the oldest.  (The `!first`
break only fires for an empty-string id, which request ids never are, and is
not modelled.) -/
def dropOldest (m : List (String × Nat)) : List (String × Nat) :=
  m.drop (m.length - COMPLETED_ID_MAX)

/-- `pruneCompletedRequestIds(now)` (lines 357-368). -/
def pruneCompleted (m : List (String × Nat)) (now : Nat) : List (String × Nat) :=
  dropOldest (pruneTTL m now)

/-- An error `res` frame as produced by `sendErrorToSocket` (lines 374-388). -/
structure ErrFrame where
  id : String
  reason : String
  code : String
  retryable : Bool
  deriving DecidableEq, Repr

/-- `sendErrorToSocket` emits the frame only when the socket is OPEN
(`socketIsOpen`, lines 370-372); otherwise it returns silently. -/
def sendErrorToSocket (wsOpen : Bool) (f : ErrFrame) : List ErrFrame :=
  if wsOpen then [f] else []

/-- `registerSocketPending` (lines 395-402). -/
def registerSocketPending (idx : List (Nat × List String)) (k : Nat)
    (id : String) : List (Nat × List String) :=
  if idx.any (fun e => e.1 = k) then
    idx.map (fun e => if e.1 = k then (e.1, e.2 ++ [id]) else e)
  else idx ++ [(k, [id])]

/-- `Set.delete` on a list of ids. -/
def eraseAll (l : List String) (id : String) : List String :=
  l.filter (fun x => x ≠ id)

/-- Lookup of a socket key's pending-id set. -/
def idxGet (idx : List (Nat × List String)) (k : Nat) : List String :=
  match idx.find? (fun e => e.1 = k) with
  | some e => e.2
  | none => []

/-- `pendingBySocketKey.delete(k)`. -/
def idxDelete (idx : List (Nat × List String)) (k : Nat) :
    List (Nat × List String) :=
  idx.filter (fun e => e.1 ≠ k)

/-- `enqueueCommand` (lines 507-548): prune the completed map, reject
duplicates (non-retryable), reject on a full queue (retryable), otherwise
mark the id active, index it under the receiving socket-session key and push
the item at the queue's tail. -/
def enqueueCommand (st : OffState) (sockKey : Nat) (wsOpen : Bool)
    (id : String) (now : Nat) : OffState × List ErrFrame :=
  let completed := pruneCompleted st.recentlyCompletedIds now
  let st0 := { st with recentlyCompletedIds := completed }
  if st.activeRequestIds.contains id || completedHas completed id then
    (st0, sendErrorToSocket wsOpen
      ⟨id, "duplicate_request_id", "DUPLICATE_REQUEST_ID", false⟩)
  else if MAX_GLOBAL_QUEUE_SIZE ≤ st.pendingQueue.length then
    (st0, sendErrorToSocket wsOpen
      ⟨id, "queue_overflow", "QUEUE_OVERFLOW", true⟩)
  else
    ({ st0 with
        activeRequestIds := st.activeRequestIds ++ [id],
        pendingBySocketKey := registerSocketPending st.pendingBySocketKey sockKey id,
        pendingQueue := st.pendingQueue ++ [⟨sockKey, id⟩] },
      [])

/-- **C7.**  Admission checks of `enqueueCommand` run in order: a duplicate
id (already active, or still in the pruned recently-completed map) is
rejected with reason `duplicate_request_id`, code `DUPLICATE_REQUEST_ID`,
`retryable = false`, and nothing reaches the queue or the active set (so no
browser operation is ever invoked for it); otherwise a queue already holding
`MAX_GLOBAL_QUEUE_SIZE = 200` or more items rejects with `queue_overflow`,
code `QUEUE_OVERFLOW`, `retryable = true`; otherwise the command is enqueued
at the tail and its id marked active. -/
theorem c7_admission_checks (st : OffState) (sockKey : Nat) (id : String)
    (now : Nat) :
    ((st.activeRequestIds.contains id ||
        completedHas (pruneCompleted st.recentlyCompletedIds now) id) = true →
      (enqueueCommand st sockKey true id now).2 =
        [⟨id, "duplicate_request_id", "DUPLICATE_REQUEST_ID", false⟩] ∧
      (enqueueCommand st sockKey true id now).1.pendingQueue = st.pendingQueue ∧
      (enqueueCommand st sockKey true id now).1.activeRequestIds =
        st.activeRequestIds) ∧
    ((st.activeRequestIds.contains id ||
        completedHas (pruneCompleted st.recentlyCompletedIds now) id) = false →
      MAX_GLOBAL_QUEUE_SIZE ≤ st.pendingQueue.length →
      (enqueueCommand st sockKey true id now).2 =
        [⟨id, "queue_overflow", "QUEUE_OVERFLOW", true⟩] ∧
      (enqueueCommand st sockKey true id now).1.pendingQueue = st.pendingQueue ∧
      (enqueueCommand st sockKey true id now).1.activeRequestIds =
        st.activeRequestIds) ∧
    ((st.activeRequestIds.contains id ||
        completedHas (pruneCompleted st.recentlyCompletedIds now) id) = false →
      st.pendingQueue.length < MAX_GLOBAL_QUEUE_SIZE →
      (enqueueCommand st sockKey true id now).2 = [] ∧
      (enqueueCommand st sockKey true id now).1.pendingQueue =
        st.pendingQueue ++ [⟨sockKey, id⟩] ∧
      id ∈ (enqueueCommand st sockKey true id now).1.activeRequestIds) := by
  refine ⟨?_, ?_, ?_⟩
  · intro hdup
    unfold enqueueCommand
    rw [if_pos hdup]
    exact ⟨rfl, rfl, rfl⟩
  · intro hdup hfull
    unfold enqueueCommand
    rw [if_neg (by rw [hdup]; decide), if_pos hfull]
    exact ⟨rfl, rfl, rfl⟩
  · intro hdup hroom
    unfold enqueueCommand
    rw [if_neg (by rw [hdup]; decide), if_neg (by omega)]
    refine ⟨rfl, rfl, ?_⟩
    simp

/-- Witness for `c7_admission_checks`: a duplicate id (still in the
recently-completed map) is rejected without touching queue or active set. -/
theorem c7_admission_checks_witness :
    (enqueueCommand
        { socketStates := [4], pendingQueue := [],
          pendingBySocketKey := [], activeRequestIds := [],
          recentlyCompletedIds := [("a", 900)] }
        4 true "a" 1000).2 =
      [⟨"a", "duplicate_request_id", "DUPLICATE_REQUEST_ID", false⟩] ∧
    (enqueueCommand
        { socketStates := [4], pendingQueue := [],
          pendingBySocketKey := [], activeRequestIds := [],
          recentlyCompletedIds := [("a", 900)] }
        4 true "a" 1000).1.pendingQueue = [] ∧
    (enqueueCommand
        { socketStates := [4], pendingQueue := [],
          pendingBySocketKey := [], activeRequestIds := [],
          recentlyCompletedIds := [("a", 900)] }
        4 true "a" 1000).1.activeRequestIds = [] :=
  (c7_admission_checks
      { socketStates := [4], pendingQueue := [],
        pendingBySocketKey := [], activeRequestIds := [],
        recentlyCompletedIds := [("a", 900)] }
      4 "a" 1000).1 (by decide)

/-! ## Socket finalization (`chrome-extension/offscreen.js` lines 411-442)

`finalizeSocket` drops the socket's entry from `socketStates`, marks every id
indexed under its socket-session key completed (and no longer active),
splices every queue item it owns out of `pendingQueue` (from the tail
forward, attempting a `socket_closed` error response for each), and prunes
the completed map.  `sendErrorToSocket` checks `socketIsOpen(state)` first;
`finalizeSocket` is called only from `ws.onclose` (line 735), where the
browser guarantees the socket has already reached the CLOSED ready state, so
the `wsOpen` argument is `false` at every real call. -/

def sockClosedFrame (id : String) : ErrFrame :=
  ⟨id, "socket_closed", "SOCKET_CLOSED", true⟩

/-- The queue items owned by `key`, in the order the splice loop (lines
425-439) visits them: from the tail of the queue forward. -/
def finalizeRemoved (st : OffState) (key : Nat) : List OffItem :=
  (st.pendingQueue.filter (fun it => it.socketKey = key)).reverse

def finalizeSocket (st : OffState) (key : Nat) (wsOpen : Bool) (now : Nat) :
    OffState × List ErrFrame :=
  ({ socketStates := st.socketStates.filter (fun k => k ≠ key),
     pendingQueue := st.pendingQueue.filter (fun it => it.socketKey ≠ key),
     pendingBySocketKey := idxDelete st.pendingBySocketKey key,
     activeRequestIds :=
       (finalizeRemoved st key).foldl (fun l it => eraseAll l it.id)
         ((idxGet st.pendingBySocketKey key).foldl eraseAll st.activeRequestIds),
     recentlyCompletedIds :=
       pruneCompleted
         ((finalizeRemoved st key).foldl (fun m it => completedSet m it.id now)
           ((idxGet st.pendingBySocketKey key).foldl
             (fun m id => completedSet m id now) st.recentlyCompletedIds))
         now },
    ((finalizeRemoved st key).map
      (fun it => sendErrorToSocket wsOpen (sockClosedFrame it.id))).flatten)

theorem eraseAll_not_self (l : List String) (x : String) : x ∉ eraseAll l x := by
  intro h
  have := List.of_mem_filter h
  simp at this

theorem eraseAll_not_mem (l : List String) (x y : String) (h : x ∉ l) :
    x ∉ eraseAll l y :=
  fun hx => h (List.mem_of_mem_filter hx)

theorem foldl_erase_preserve (ids : List String) (l : List String) (x : String)
    (h : x ∉ l) : x ∉ ids.foldl eraseAll l := by
  induction ids generalizing l with
  | nil => exact h
  | cons y t ih => exact ih _ (eraseAll_not_mem l x y h)

theorem foldl_erase_mem (ids : List String) (l : List String) (x : String)
    (hx : x ∈ ids) : x ∉ ids.foldl eraseAll l := by
  induction ids generalizing l with
  | nil => cases hx
  | cons y t ih =>
    rcases List.mem_cons.mp hx with h | h
    · subst h
      by_cases hxt : x ∈ t
      · exact ih _ hxt
      · exact foldl_erase_preserve t _ x (eraseAll_not_self l x)
    · exact ih _ h

/-- Every entry of `m` keyed `x` carries timestamp `now`. -/
def AllNow (m : List (String × Nat)) (x : String) (now : Nat) : Prop :=
  ∀ p ∈ m, p.1 = x → p.2 = now

theorem completedSet_has_self (m : List (String × Nat)) (x : String) (now : Nat) :
    completedHas (completedSet m x now) x = true := by
  unfold completedSet
  split
  · rename_i h
    unfold completedHas at h ⊢
    rw [List.any_eq_true] at h ⊢
    obtain ⟨p, hp, hpx⟩ := h
    have hx : p.1 = x := of_decide_eq_true hpx
    exact ⟨(p.1, now), List.mem_map.mpr ⟨p, hp, by rw [if_pos hx]⟩, by simp [hx]⟩
  · unfold completedHas
    rw [List.any_eq_true]
    exact ⟨(x, now), by simp, by simp⟩

theorem completedSet_has_mono (m : List (String × Nat)) (x y : String)
    (ts : Nat) (h : completedHas m x = true) :
    completedHas (completedSet m y ts) x = true := by
  unfold completedSet
  split
  · unfold completedHas at h ⊢
    rw [List.any_eq_true] at h ⊢
    obtain ⟨p, hp, hpx⟩ := h
    have hx : p.1 = x := of_decide_eq_true hpx
    refine ⟨if p.1 = y then (p.1, ts) else p, List.mem_map.mpr ⟨p, hp, rfl⟩, ?_⟩
    split <;> simp [hx]
  · unfold completedHas at h ⊢
    rw [List.any_eq_true] at h ⊢
    obtain ⟨p, hp, hpx⟩ := h
    exact ⟨p, List.mem_append_left _ hp, hpx⟩

theorem allNow_completedSet_self (m : List (String × Nat)) (x : String)
    (now : Nat) : AllNow (completedSet m x now) x now := by
  unfold completedSet
  split
  · intro p hp hpx
    obtain ⟨q, hq, hfq⟩ := List.mem_map.mp hp
    by_cases hqx : q.1 = x
    · rw [if_pos hqx] at hfq
      rw [← hfq]
    · rw [if_neg hqx] at hfq
      subst hfq
      exact absurd hpx hqx
  · rename_i hno
    intro p hp hpx
    rcases List.mem_append.mp hp with h | h
    · exfalso
      apply hno
      unfold completedHas
      rw [List.any_eq_true]
      exact ⟨p, h, by simp [hpx]⟩
    · simp only [List.mem_singleton] at h
      rw [h]

theorem allNow_completedSet_other (m : List (String × Nat)) (x y : String)
    (now : Nat) (h : AllNow m x now) : AllNow (completedSet m y now) x now := by
  unfold completedSet
  split
  · intro p hp hpx
    obtain ⟨q, hq, hfq⟩ := List.mem_map.mp hp
    by_cases hqy : q.1 = y
    · rw [if_pos hqy] at hfq
      rw [← hfq]
    · rw [if_neg hqy] at hfq
      subst hfq
      exact h q hq hpx
  · intro p hp hpx
    rcases List.mem_append.mp hp with hm | hm
    · exact h p hm hpx
    · simp only [List.mem_singleton] at hm
      rw [hm]

theorem foldl_completedSet_preserve (ids : List String) (m : List (String × Nat))
    (x : String) (now : Nat) (h1 : completedHas m x = true)
    (h2 : AllNow m x now) :
    completedHas (ids.foldl (fun m' id => completedSet m' id now) m) x = true ∧
      AllNow (ids.foldl (fun m' id => completedSet m' id now) m) x now := by
  induction ids generalizing m with
  | nil => exact ⟨h1, h2⟩
  | cons y t ih =>
    exact ih _ (completedSet_has_mono m x y now h1)
      (allNow_completedSet_other m x y now h2)

theorem foldl_completedSet_marks (ids : List String) (m : List (String × Nat))
    (x : String) (now : Nat) (hx : x ∈ ids) :
    completedHas (ids.foldl (fun m' id => completedSet m' id now) m) x = true ∧
      AllNow (ids.foldl (fun m' id => completedSet m' id now) m) x now := by
  induction ids generalizing m with
  | nil => cases hx
  | cons y t ih =>
    rcases List.mem_cons.mp hx with h | h
    · subst h
      exact foldl_completedSet_preserve t _ x now
        (completedSet_has_self m x now) (allNow_completedSet_self m x now)
    · exact ih _ h

theorem pruneTTL_keeps (m : List (String × Nat)) (x : String) (now : Nat)
    (h1 : completedHas m x = true) (h2 : AllNow m x now) :
    completedHas (pruneTTL m now) x = true := by
  unfold completedHas at h1 ⊢
  rw [List.any_eq_true] at h1 ⊢
  obtain ⟨p, hp, hpx⟩ := h1
  have hx : p.1 = x := of_decide_eq_true hpx
  refine ⟨p, List.mem_filter.mpr ⟨hp, ?_⟩, hpx⟩
  have hts : p.2 = now := h2 p hp hx
  simp [hts, COMPLETED_ID_TTL_MS]

theorem dropOldest_of_le (m : List (String × Nat))
    (h : m.length ≤ COMPLETED_ID_MAX) : dropOldest m = m := by
  unfold dropOldest
  rw [Nat.sub_eq_zero_of_le h]
  exact List.drop_zero _

theorem completedSet_length_le (m : List (String × Nat)) (id : String)
    (ts : Nat) : (completedSet m id ts).length ≤ m.length + 1 := by
  unfold completedSet
  split
  · rw [List.length_map]
    omega
  · rw [List.length_append]
    simp

theorem foldl_completedSet_length (ids : List String) (m : List (String × Nat))
    (now : Nat) :
    (ids.foldl (fun m' id => completedSet m' id now) m).length ≤
      m.length + ids.length := by
  induction ids generalizing m with
  | nil => simp
  | cons y t ih =>
    have h1 := ih (completedSet m y now)
    have h2 := completedSet_length_le m y now
    simp only [List.foldl_cons, List.length_cons]
    omega

theorem pruneTTL_length_le (m : List (String × Nat)) (now : Nat) :
    (pruneTTL m now).length ≤ m.length :=
  List.length_filter_le _ m

theorem flatten_map_nil {α β : Type} (l : List α) :
    (l.map (fun _ => ([] : List β))).flatten = [] := by
  induction l with
  | nil => rfl
  | cons a t ih => simp [ih]

/-- **C6, counterexample.**  The claim says each queued item owned by the
finalized socket "receives a socket-closed error response".  The only call
site of `finalizeSocket` is `ws.onclose` (offscreen.js line 735), where the
socket has already reached the CLOSED ready state, so `sendErrorToSocket`'s
`socketIsOpen` guard drops every frame: here a state with one queued item
owned by key 7 is finalized and no error frame is emitted at all. -/
theorem c6_finalize_counterexample :
    (finalizeSocket
        { socketStates := [7], pendingQueue := [⟨7, "a"⟩],
          pendingBySocketKey := [(7, ["a"])], activeRequestIds := ["a"],
          recentlyCompletedIds := [] }
        7 false 1000).2 = [] ∧
      sockClosedFrame "a" ∉
        (finalizeSocket
            { socketStates := [7], pendingQueue := [⟨7, "a"⟩],
              pendingBySocketKey := [(7, ["a"])], activeRequestIds := ["a"],
              recentlyCompletedIds := [] }
            7 false 1000).2 := by
  constructor
  · rfl
  · intro h
    rw [show (finalizeSocket
        { socketStates := [7], pendingQueue := [⟨7, "a"⟩],
          pendingBySocketKey := [(7, ["a"])], activeRequestIds := ["a"],
          recentlyCompletedIds := [] }
        7 false 1000).2 = [] from rfl] at h
    cases h

/-- **C6, amended.**  When the supervisor finalizes a socket-session key,
every queued item owned by that key is removed from the pending queue and a
socket-closed error response is constructed for it but dropped (the
finalized socket is no longer open, so `sendErrorToSocket` emits nothing);
every id the key referenced — both the ids indexed under the key and the
removed queue items' ids — is marked completed and removed from the active
set; and afterwards the queue holds no item whose socket-session key belongs
to a dead socket.  (`hsize` rules out eviction from the bounded completed
map, which holds in every real execution since the map is pruned to at most
2000 entries and the queue to at most 200 items.) -/
theorem c6_finalize_socket (st : OffState) (key : Nat) (now : Nat)
    (halive : ∀ it ∈ st.pendingQueue, it.socketKey ∈ st.socketStates)
    (hsize : st.recentlyCompletedIds.length +
      (idxGet st.pendingBySocketKey key).length +
      st.pendingQueue.length ≤ COMPLETED_ID_MAX) :
    (finalizeSocket st key false now).1.pendingQueue =
      st.pendingQueue.filter (fun it => it.socketKey ≠ key) ∧
    (finalizeSocket st key false now).2 = [] ∧
    (∀ it ∈ st.pendingQueue, it.socketKey = key →
      it.id ∉ (finalizeSocket st key false now).1.activeRequestIds ∧
      completedHas (finalizeSocket st key false now).1.recentlyCompletedIds
        it.id = true) ∧
    (∀ id ∈ idxGet st.pendingBySocketKey key,
      id ∉ (finalizeSocket st key false now).1.activeRequestIds ∧
      completedHas (finalizeSocket st key false now).1.recentlyCompletedIds
        id = true) ∧
    (∀ it ∈ (finalizeSocket st key false now).1.pendingQueue,
      it.socketKey ∈ (finalizeSocket st key false now).1.socketStates) := by
  have hfoldA : (finalizeRemoved st key).foldl (fun l it => eraseAll l it.id)
        ((idxGet st.pendingBySocketKey key).foldl eraseAll st.activeRequestIds) =
      ((finalizeRemoved st key).map OffItem.id).foldl eraseAll
        ((idxGet st.pendingBySocketKey key).foldl eraseAll st.activeRequestIds) :=
    (List.foldl_map _ _ _ _).symm
  have hfoldC : (finalizeRemoved st key).foldl (fun m it => completedSet m it.id now)
        ((idxGet st.pendingBySocketKey key).foldl
          (fun m id => completedSet m id now) st.recentlyCompletedIds) =
      ((finalizeRemoved st key).map OffItem.id).foldl
        (fun m id => completedSet m id now)
        ((idxGet st.pendingBySocketKey key).foldl
          (fun m id => completedSet m id now) st.recentlyCompletedIds) :=
    (List.foldl_map OffItem.id (fun m id => completedSet m id now)
      (finalizeRemoved st key) _).symm
  have hremlen : (finalizeRemoved st key).length ≤ st.pendingQueue.length := by
    unfold finalizeRemoved
    rw [List.length_reverse]
    exact List.length_filter_le _ _
  have hbound : (((finalizeRemoved st key).map OffItem.id).foldl
        (fun m id => completedSet m id now)
        ((idxGet st.pendingBySocketKey key).foldl
          (fun m id => completedSet m id now) st.recentlyCompletedIds)).length ≤
      COMPLETED_ID_MAX := by
    have h1 := foldl_completedSet_length ((finalizeRemoved st key).map OffItem.id)
      ((idxGet st.pendingBySocketKey key).foldl
        (fun m id => completedSet m id now) st.recentlyCompletedIds) now
    have h2 := foldl_completedSet_length (idxGet st.pendingBySocketKey key)
      st.recentlyCompletedIds now
    rw [List.length_map] at h1
    omega
  have hprune : ∀ m : List (String × Nat), m.length ≤ COMPLETED_ID_MAX →
      pruneCompleted m now = pruneTTL m now := by
    intro m hm
    unfold pruneCompleted
    exact dropOldest_of_le _ (le_trans (pruneTTL_length_le m now) hm)
  refine ⟨rfl, ?_, ?_, ?_, ?_⟩
  · dsimp only [finalizeSocket]
    have : ∀ it : OffItem,
        sendErrorToSocket false (sockClosedFrame it.id) = [] := fun _ => rfl
    calc ((finalizeRemoved st key).map
          (fun it => sendErrorToSocket false (sockClosedFrame it.id))).flatten
        = ((finalizeRemoved st key).map
            (fun _ => ([] : List ErrFrame))).flatten := by
          rw [List.map_congr_left (fun it _ => this it)]
      _ = [] := flatten_map_nil _
  · intro it hit hkey
    have hmem : it.id ∈ (finalizeRemoved st key).map OffItem.id := by
      apply List.mem_map_of_mem
      unfold finalizeRemoved
      rw [List.mem_reverse]
      exact List.mem_filter.mpr ⟨hit, by simp [hkey]⟩
    dsimp only [finalizeSocket]
    rw [hfoldA, hfoldC, hprune _ hbound]
    constructor
    · exact foldl_erase_mem _ _ _ hmem
    · obtain ⟨h1, h2⟩ := foldl_completedSet_marks _ _ _ now hmem
      exact pruneTTL_keeps _ _ now h1 h2
  · intro id hid
    dsimp only [finalizeSocket]
    rw [hfoldA, hfoldC, hprune _ hbound]
    constructor
    · exact foldl_erase_preserve _ _ _ (foldl_erase_mem _ _ _ hid)
    · obtain ⟨h1, h2⟩ := foldl_completedSet_marks _ st.recentlyCompletedIds _ now hid
      obtain ⟨h3, h4⟩ := foldl_completedSet_preserve
        ((finalizeRemoved st key).map OffItem.id) _ _ now h1 h2
      exact pruneTTL_keeps _ _ now h3 h4
  · intro it hit
    have h1 : it ∈ st.pendingQueue := List.mem_of_mem_filter hit
    have h2 : it.socketKey ≠ key := by
      have := List.of_mem_filter hit
      exact of_decide_eq_true this
    dsimp only [finalizeSocket]
    exact List.mem_filter.mpr ⟨halive it h1, by simp [h2]⟩

/-- Witness for `c6_finalize_socket` on a concrete two-socket state. -/
theorem c6_finalize_socket_witness :
    (finalizeSocket
        { socketStates := [7, 8], pendingQueue := [⟨7, "a"⟩, ⟨8, "b"⟩],
          pendingBySocketKey := [(7, ["a"]), (8, ["b"])],
          activeRequestIds := ["a", "b"], recentlyCompletedIds := [] }
        7 false 1000).1.pendingQueue =
      ([⟨7, "a"⟩, ⟨8, "b"⟩] : List OffItem).filter
        (fun it => it.socketKey ≠ 7) ∧
    (finalizeSocket
        { socketStates := [7, 8], pendingQueue := [⟨7, "a"⟩, ⟨8, "b"⟩],
          pendingBySocketKey := [(7, ["a"]), (8, ["b"])],
          activeRequestIds := ["a", "b"], recentlyCompletedIds := [] }
        7 false 1000).2 = [] :=
  have h := c6_finalize_socket
    { socketStates := [7, 8], pendingQueue := [⟨7, "a"⟩, ⟨8, "b"⟩],
      pendingBySocketKey := [(7, ["a"]), (8, ["b"])],
      activeRequestIds := ["a", "b"], recentlyCompletedIds := [] }
    7 1000 (by decide) (by decide)
  ⟨h.1, h.2.1⟩

end Supervisor

namespace UrlModel

/-! ## URL parsing and canonicalization

A shallow model of the WHATWG `URL` behavior used by the two normalizers:
`normalizeWsUrl` (`chrome-extension/offscreen.js` lines 104-117) and
`normalizeUrl` (`chrome-extension/background.js` lines 283-297).

The model covers hierarchical `scheme://[userinfo@]host[:port][/path][?query][#frag]`
URLs over their literal characters.  WHATWG behaviors modelled: the default
port of `ws`/`http` (80) and `wss`/`https` (443) is dropped so `url.port` is
empty for it; an absent path serializes as `/`; an IPv6 host keeps its
square brackets in `url.hostname` (so `new URL("http://[::1]/").hostname`
is `"[::1]"`, not `"::1"`); ports above 65535 fail to parse; the port is
recognized only after the *last* `@` of the authority and never inside
brackets.  Not modelled (the inputs the claims depend on do not use them):
case normalization of scheme/host, percent-encoding, dot-segment removal,
and non-hierarchical (opaque-path) schemes. -/

structure Url where
  scheme : List Char
  userinfo : Option (List Char)
  host : List Char
  port : Option (List Char)
  path : List Char
  query : Option (List Char)
  frag : Option (List Char)
  deriving DecidableEq, Repr

def isDelim (c : Char) : Bool :=
  c = '/' || c = '?' || c = '#'

def isSchemeChar (c : Char) : Bool :=
  c.isAlpha || c.isDigit || c = '+' || c = '-' || c = '.'

def digitsVal (l : List Char) : Nat :=
  l.foldl (fun acc c => acc * 10 + (c.toNat - '0'.toNat)) 0

def defaultPort (scheme : List Char) : Option Nat :=
  if scheme = "ws".data ∨ scheme = "http".data then some 80
  else if scheme = "wss".data ∨ scheme = "https".data then some 443
  else none

/-- Split a list around the *last* occurrence of `x` (JS `lastIndexOf`-style,
as the WHATWG authority parser treats `@`). -/
def splitAtLast (x : Char) : List Char → Option (List Char × List Char)
  | [] => none
  | c :: cs =>
    match splitAtLast x cs with
    | some (b, a) => some (c :: b, a)
    | none => if c = x then some ([], cs) else none

def parseAuthority (auth : List Char) : Option (List Char) × List Char :=
  match splitAtLast '@' auth with
  | some (u, hp) => (some u, hp)
  | none => (none, auth)

/-- Split `host[:port]`, keeping an IPv6 host's brackets inside the host
(as `url.hostname` does). -/
def parseHostPort (hp : List Char) : Option (List Char × List Char) :=
  if hp.head? = some '[' then
    let inside := hp.tail.takeWhile (fun c => c ≠ ']')
    let rest2 := hp.tail.dropWhile (fun c => c ≠ ']')
    if rest2.head? = some ']' then
      if rest2.tail = [] then some ('[' :: (inside ++ [']']), [])
      else if rest2.tail.head? = some ':' then
        some ('[' :: (inside ++ [']']), rest2.tail.tail)
      else none
    else none
  else
    let rest := hp.dropWhile (fun c => c ≠ ':')
    if rest.head? = some ':' then
      some (hp.takeWhile (fun c => c ≠ ':'), rest.tail)
    else some (hp.takeWhile (fun c => c ≠ ':'), [])

/-- The path of `path[?query][#frag]`; an empty path becomes `/`
(special-scheme serialization). -/
def pathOfAfter (after : List Char) : List Char :=
  if after.takeWhile (fun c => c ≠ '?' ∧ c ≠ '#') = [] then ['/']
  else after.takeWhile (fun c => c ≠ '?' ∧ c ≠ '#')

/-- The query of `path[?query][#frag]`. -/
def queryOfAfter (after : List Char) : Option (List Char) :=
  match after.dropWhile (fun c => c ≠ '?' ∧ c ≠ '#') with
  | '?' :: qr => some (qr.takeWhile (fun c => c ≠ '#'))
  | _ => none

/-- The fragment of `path[?query][#frag]`. -/
def fragOfAfter (after : List Char) : Option (List Char) :=
  match after.dropWhile (fun c => c ≠ '?' ∧ c ≠ '#') with
  | '?' :: qr =>
    match qr.dropWhile (fun c => c ≠ '#') with
    | '#' :: f => some f
    | _ => none
  | '#' :: f => some f
  | _ => none

def parseUrlList (cs : List Char) : Option Url :=
  let sch := cs.takeWhile (fun c => c ≠ ':')
  let rest := cs.dropWhile (fun c => c ≠ ':')
  if rest.take 3 ≠ [':', '/', '/'] then none
  else
    let r := rest.drop 3
    if sch = [] then none
    else if ¬ sch.all isSchemeChar = true then none
    else
      let auth := r.takeWhile (fun c => isDelim c = false)
      let after := r.dropWhile (fun c => isDelim c = false)
      let uihp := parseAuthority auth
      match parseHostPort uihp.2 with
      | none => none
      | some hd =>
        if hd.1 = [] then none
        else if ¬ hd.2.all Char.isDigit = true then none
        else if hd.2 = [] then
          some ⟨sch, uihp.1, hd.1, none, pathOfAfter after,
            queryOfAfter after, fragOfAfter after⟩
        else if 65535 < digitsVal hd.2 then none
        else if defaultPort sch = some (digitsVal hd.2) then
          some ⟨sch, uihp.1, hd.1, none, pathOfAfter after,
            queryOfAfter after, fragOfAfter after⟩
        else some ⟨sch, uihp.1, hd.1, some hd.2, pathOfAfter after,
          queryOfAfter after, fragOfAfter after⟩

/-- `userinfo@` when present. -/
def uiSer : Option (List Char) → List Char
  | some s => s ++ ['@']
  | none => []

/-- `:port` when present. -/
def portSer : Option (List Char) → List Char
  | some d => ':' :: d
  | none => []

/-- `?query` when present. -/
def qSer : Option (List Char) → List Char
  | some s => '?' :: s
  | none => []

/-- `#frag` when present. -/
def fSer : Option (List Char) → List Char
  | some s => '#' :: s
  | none => []

def serializeUrl (u : Url) : List Char :=
  u.scheme ++ ':' :: '/' :: '/' ::
    (uiSer u.userinfo ++
      (u.host ++ (portSer u.port ++ (u.path ++ (qSer u.query ++ fSer u.frag)))))

/-! ### Helper lemmas on `takeWhile` / `dropWhile` / `splitAtLast` -/

theorem takeWhile_append_all (p : Char → Bool) (l1 l2 : List Char)
    (h : ∀ c ∈ l1, p c = true) :
    (l1 ++ l2).takeWhile p = l1 ++ l2.takeWhile p := by
  induction l1 with
  | nil => rfl
  | cons c t ih =>
    rw [List.cons_append, List.takeWhile_cons, if_pos (h c (List.mem_cons_self c t)),
      ih (fun x hx => h x (List.mem_cons_of_mem c hx)), List.cons_append]

theorem dropWhile_append_all (p : Char → Bool) (l1 l2 : List Char)
    (h : ∀ c ∈ l1, p c = true) :
    (l1 ++ l2).dropWhile p = l2.dropWhile p := by
  induction l1 with
  | nil => rfl
  | cons c t ih =>
    rw [List.cons_append, List.dropWhile_cons, if_pos (h c (List.mem_cons_self c t))]
    exact ih (fun x hx => h x (List.mem_cons_of_mem c hx))

theorem takeWhile_all (p : Char → Bool) (l : List Char)
    (h : ∀ c ∈ l, p c = true) : l.takeWhile p = l := by
  have := takeWhile_append_all p l [] h
  simpa using this

theorem dropWhile_all (p : Char → Bool) (l : List Char)
    (h : ∀ c ∈ l, p c = true) : l.dropWhile p = [] := by
  have := dropWhile_append_all p l [] h
  simpa using this

theorem splitAtLast_none (x : Char) (l : List Char) (h : x ∉ l) :
    splitAtLast x l = none := by
  induction l with
  | nil => rfl
  | cons c t ih =>
    unfold splitAtLast
    rw [ih (fun hx => h (List.mem_cons_of_mem c hx))]
    simp only
    rw [if_neg (fun hc => h (by rw [← hc]; exact List.mem_cons_self c t))]

theorem splitAtLast_append (x : Char) (l1 l2 : List Char) (h : x ∉ l2) :
    splitAtLast x (l1 ++ x :: l2) = some (l1, l2) := by
  induction l1 with
  | nil =>
    rw [List.nil_append]
    unfold splitAtLast
    rw [splitAtLast_none x l2 h]
    simp
  | cons c t ih =>
    rw [List.cons_append]
    unfold splitAtLast
    rw [ih]

theorem splitAtLast_isSome_of_mem (x : Char) (l : List Char) (h : x ∈ l) :
    (splitAtLast x l).isSome = true := by
  induction l with
  | nil => cases h
  | cons c t ih =>
    unfold splitAtLast
    cases hrec : splitAtLast x t with
    | some p => rfl
    | none =>
      simp only
      rcases List.mem_cons.mp h with h1 | h1
      · rw [if_pos h1.symm]
        rfl
      · rw [hrec] at ih
        cases ih h1

theorem splitAtLast_eq (x : Char) (l b a : List Char)
    (h : splitAtLast x l = some (b, a)) : l = b ++ x :: a ∧ x ∉ a := by
  induction l generalizing b a with
  | nil => cases h
  | cons c t ih =>
    unfold splitAtLast at h
    cases hrec : splitAtLast x t with
    | some p =>
      rw [hrec] at h
      obtain ⟨b', a'⟩ := p
      simp only [Option.some.injEq, Prod.mk.injEq] at h
      obtain ⟨hb, ha⟩ := h
      obtain ⟨ht, hxa⟩ := ih b' a' hrec
      constructor
      · rw [← hb, List.cons_append, ← ha, ← ht]
      · rw [← ha]
        exact hxa
    | none =>
      rw [hrec] at h
      simp only at h
      by_cases hc : c = x
      · rw [if_pos hc] at h
        simp only [Option.some.injEq, Prod.mk.injEq] at h
        obtain ⟨hb, ha⟩ := h
        refine ⟨by rw [← hb, ← ha, hc, List.nil_append], ?_⟩
        rw [← ha]
        intro hx
        have := splitAtLast_isSome_of_mem x t hx
        rw [hrec] at this
        cases this
      · rw [if_neg hc] at h
        cases h

theorem head_of_takeWhile (p : Char → Bool) (l : List Char) (c : Char)
    (t : List Char) (h : l.takeWhile p = c :: t) : l.head? = some c := by
  cases l with
  | nil => cases h
  | cons d l' =>
    rw [List.takeWhile_cons] at h
    by_cases hd : p d = true
    · rw [if_pos hd] at h
      cases h
      rfl
    · rw [if_neg hd] at h
      cases h

theorem head_of_dropWhile_false (p : Char → Bool) (l : List Char) (c : Char)
    (t : List Char) (h : l.dropWhile p = c :: t) : p c = false := by
  induction l with
  | nil => cases h
  | cons d l' ih =>
    rw [List.dropWhile_cons] at h
    by_cases hd : p d = true
    · rw [if_pos hd] at h
      exact ih h
    · rw [if_neg hd] at h
      cases h
      exact Bool.of_not_eq_true hd

theorem mem_takeWhile_pred (X : Char → Prop) [DecidablePred X]
    (l : List Char) (c : Char)
    (hc : c ∈ l.takeWhile (fun c => decide (X c))) : X c := by
  have h1 := List.mem_takeWhile_imp hc
  exact of_decide_eq_true h1

theorem dropWhile_head_pred (X : Char → Prop) [DecidablePred X]
    (l : List Char) (c : Char) (t : List Char)
    (h : l.dropWhile (fun c => decide (X c)) = c :: t) : ¬ X c := by
  have h1 := head_of_dropWhile_false _ l c t h
  exact of_decide_eq_false h1

theorem eq_cons_of_head? (l : List Char) (a : Char) (h : l.head? = some a) :
    l = a :: l.tail := by
  cases l with
  | nil => cases h
  | cons b t =>
    injection h with h'
    rw [h']
    rfl

/-! ### Character classes -/

theorem schemeChar_ne_colon (c : Char) (h : isSchemeChar c = true) : c ≠ ':' := by
  intro hc
  subst hc
  exact absurd h (by decide)

theorem digit_not_delim (c : Char) (h : c.isDigit = true) : isDelim c = false := by
  cases hd : isDelim c
  · rfl
  · exfalso
    simp only [isDelim, Bool.or_eq_true, decide_eq_true_eq] at hd
    rcases hd with (h1 | h1) | h1 <;> (subst h1; exact absurd h (by decide))

theorem digit_ne_at (c : Char) (h : c.isDigit = true) : c ≠ '@' := by
  intro hc
  subst hc
  exact absurd h (by decide)

/-! ### Well-formed URLs

The invariant established by `parseUrlList` and preserved by both
normalizers; it is exactly what `parseUrlList (serializeUrl u) = some u`
needs. -/

structure WF (u : Url) : Prop where
  scheme_ne : u.scheme ≠ []
  scheme_ok : u.scheme.all isSchemeChar = true
  ui_ok : ∀ s, u.userinfo = some s → ∀ c ∈ s, isDelim c = false
  host_ne : u.host ≠ []
  host_delim : ∀ c ∈ u.host, isDelim c = false
  host_at : '@' ∉ u.host
  host_shape : (∃ inside, u.host = '[' :: (inside ++ [']']) ∧ ']' ∉ inside) ∨
    (':' ∉ u.host ∧ u.host.head? ≠ some '[')
  port_ok : ∀ d, u.port = some d → d ≠ [] ∧ d.all Char.isDigit = true ∧
    digitsVal d ≤ 65535 ∧ defaultPort u.scheme ≠ some (digitsVal d)
  path_head : u.path.head? = some '/'
  path_delim : ∀ c ∈ u.path, c ≠ '?' ∧ c ≠ '#'
  query_ok : ∀ s, u.query = some s → '#' ∉ s

/-! ### Stage lemmas for parsing a serialized URL -/

theorem parse_scheme_split (sch rest : List Char)
    (hok : sch.all isSchemeChar = true) :
    (sch ++ ':' :: rest).takeWhile (fun c => c ≠ ':') = sch ∧
      (sch ++ ':' :: rest).dropWhile (fun c => c ≠ ':') = ':' :: rest := by
  have hall : ∀ c ∈ sch, (fun c => decide (¬ c = ':')) c = true := by
    intro c hc
    exact decide_eq_true
      (schemeChar_ne_colon c (List.all_eq_true.mp hok c hc))
  constructor
  · rw [takeWhile_append_all _ sch _ hall, List.takeWhile_cons,
      if_neg (by decide), List.append_nil]
  · rw [dropWhile_append_all _ sch _ hall, List.dropWhile_cons,
      if_neg (by decide)]

theorem split_nondelim (A B : List Char) (hA : ∀ c ∈ A, isDelim c = false)
    (hB : ∀ c t, B = c :: t → isDelim c = true) :
    (A ++ B).takeWhile (fun c => isDelim c = false) = A ∧
      (A ++ B).dropWhile (fun c => isDelim c = false) = B := by
  have hall : ∀ c ∈ A, (fun c => decide (isDelim c = false)) c = true :=
    fun c hc => decide_eq_true (hA c hc)
  constructor
  · rw [takeWhile_append_all _ A B hall]
    cases hBc : B with
    | nil => simp
    | cons c t =>
      have hc := hB c t hBc
      rw [List.takeWhile_cons, if_neg (by simp [hc]), List.append_nil]
  · rw [dropWhile_append_all _ A B hall]
    cases hBc : B with
    | nil => rfl
    | cons c t =>
      have hc := hB c t hBc
      rw [List.dropWhile_cons, if_neg (by simp [hc])]

theorem parseAuthority_ui (s hp : List Char) (h : '@' ∉ hp) :
    parseAuthority ((s ++ ['@']) ++ hp) = (some s, hp) := by
  unfold parseAuthority
  rw [List.append_assoc, List.singleton_append, splitAtLast_append '@' s hp h]

theorem parseAuthority_no_ui (auth : List Char) (h : '@' ∉ auth) :
    parseAuthority auth = (none, auth) := by
  unfold parseAuthority
  rw [splitAtLast_none '@' auth h]

theorem parseHostPort_bracket (inside portRest : List Char)
    (hin : ']' ∉ inside)
    (hPR : portRest = [] ∨ ∃ d, portRest = ':' :: d) :
    parseHostPort (('[' :: (inside ++ [']'])) ++ portRest) =
      some ('[' :: (inside ++ [']']), portRest.tail) := by
  have hshape : ('[' :: (inside ++ [']'])) ++ portRest =
      '[' :: (inside ++ (']' :: portRest)) := by
    simp [List.append_assoc]
  rw [hshape]
  unfold parseHostPort
  rw [if_pos (show ('[' :: (inside ++ (']' :: portRest))).head? = some '['
    from rfl)]
  have htail : ∀ c ∈ inside, (fun c => decide (¬ c = ']')) c = true :=
    fun c hc => decide_eq_true (fun he => hin (he ▸ hc))
  have htake : (inside ++ (']' :: portRest)).takeWhile (fun c => c ≠ ']') =
      inside := by
    rw [takeWhile_append_all _ inside _ htail, List.takeWhile_cons,
      if_neg (by decide), List.append_nil]
  have hdrop : (inside ++ (']' :: portRest)).dropWhile (fun c => c ≠ ']') =
      ']' :: portRest := by
    rw [dropWhile_append_all _ inside _ htail, List.dropWhile_cons,
      if_neg (by decide)]
  dsimp only [List.tail_cons]
  rw [htake, hdrop]
  rw [if_pos (show (']' :: portRest).head? = some ']' from rfl)]
  dsimp only [List.tail_cons]
  rcases hPR with hPR | ⟨d, hPR⟩ <;> subst hPR
  · rw [if_pos rfl]
    rfl
  · rw [if_neg (by simp),
      if_pos (show (':' :: d).head? = some ':' from rfl)]

theorem parseHostPort_plain (host portRest : List Char) (hne : host ≠ [])
    (hcolon : ':' ∉ host) (hhead : host.head? ≠ some '[')
    (hPR : portRest = [] ∨ ∃ d, portRest = ':' :: d) :
    parseHostPort (host ++ portRest) = some (host, portRest.tail) := by
  obtain ⟨hc, ht, rfl⟩ : ∃ hc ht, host = hc :: ht := by
    cases host with
    | nil => exact absurd rfl hne
    | cons a b => exact ⟨a, b, rfl⟩
  have hhc : hc ≠ '[' := fun he => hhead (by rw [he]; rfl)
  have hall : ∀ c ∈ hc :: ht, (fun c => decide (¬ c = ':')) c = true :=
    fun c hcm => decide_eq_true (fun he => hcolon (he ▸ hcm))
  have htake : ((hc :: ht) ++ portRest).takeWhile (fun c => c ≠ ':') =
      hc :: ht := by
    rw [takeWhile_append_all _ _ _ hall]
    rcases hPR with hPR | ⟨d, hPR⟩ <;> subst hPR
    · simp
    · rw [List.takeWhile_cons, if_neg (by decide), List.append_nil]
  have hdrop : ((hc :: ht) ++ portRest).dropWhile (fun c => c ≠ ':') =
      portRest.dropWhile (fun c => c ≠ ':') :=
    dropWhile_append_all _ _ _ hall
  unfold parseHostPort
  rw [if_neg ?hbr]
  case hbr =>
    intro hcontra
    exact hhc (Option.some.inj hcontra)
  dsimp only
  rw [hdrop]
  rcases hPR with hPR | ⟨d, hPR⟩ <;> subst hPR
  · rw [List.dropWhile_nil]
    rw [if_neg (by decide), htake]
    rfl
  · rw [show List.dropWhile (fun c => decide (c ≠ ':')) (':' :: d) =
      ':' :: d from rfl]
    rw [if_pos (show (':' :: d).head? = some ':' from rfl), htake]

/-- The shapes `qSer q ++ fSer f` can take. -/
theorem qfSer_shape (q f : Option (List Char)) :
    qSer q ++ fSer f = [] ∨ (∃ t, qSer q ++ fSer f = '?' :: t) ∨
      (∃ t, qSer q ++ fSer f = '#' :: t) := by
  cases q <;> cases f <;> simp [qSer, fSer]

theorem pq_take (path Q : List Char)
    (hallp : ∀ c ∈ path, (fun c => decide (c ≠ '?' ∧ c ≠ '#')) c = true)
    (hQ : Q = [] ∨ (∃ t, Q = '?' :: t) ∨ (∃ t, Q = '#' :: t)) :
    (path ++ Q).takeWhile (fun c => c ≠ '?' ∧ c ≠ '#') = path ∧
      (path ++ Q).dropWhile (fun c => c ≠ '?' ∧ c ≠ '#') = Q := by
  constructor
  · rw [takeWhile_append_all _ path Q hallp]
    rcases hQ with h | ⟨t, h⟩ | ⟨t, h⟩ <;> subst h
    · simp
    · rw [List.takeWhile_cons, if_neg (by decide), List.append_nil]
    · rw [List.takeWhile_cons, if_neg (by decide), List.append_nil]
  · rw [dropWhile_append_all _ path Q hallp]
    rcases hQ with h | ⟨t, h⟩ | ⟨t, h⟩ <;> subst h
    · rfl
    · rw [List.dropWhile_cons, if_neg (by decide)]
    · rw [List.dropWhile_cons, if_neg (by decide)]

/-- Parsing the serialized `path ++ ?query ++ #frag` tail recovers the three
components. -/
theorem afterParts_spec (path : List Char) (qOpt fOpt : Option (List Char))
    (hne : path ≠ []) (hpd : ∀ c ∈ path, c ≠ '?' ∧ c ≠ '#')
    (hq : ∀ s, qOpt = some s → '#' ∉ s) :
    pathOfAfter (path ++ (qSer qOpt ++ fSer fOpt)) = path ∧
      queryOfAfter (path ++ (qSer qOpt ++ fSer fOpt)) = qOpt ∧
      fragOfAfter (path ++ (qSer qOpt ++ fSer fOpt)) = fOpt := by
  have hallp : ∀ c ∈ path, (fun c => decide (c ≠ '?' ∧ c ≠ '#')) c = true :=
    fun c hc => decide_eq_true (hpd c hc)
  obtain ⟨htake, hdrop⟩ := pq_take path _ hallp (qfSer_shape qOpt fOpt)
  refine ⟨?_, ?_, ?_⟩
  · unfold pathOfAfter
    rw [htake, if_neg hne]
  · unfold queryOfAfter
    rw [hdrop]
    cases qOpt with
    | some s =>
      have hallq : ∀ c ∈ s, (fun c => decide (¬ c = '#')) c = true :=
        fun c hc => decide_eq_true (fun he => hq s rfl (he ▸ hc))
      show (match ('?' :: s) ++ fSer fOpt with
        | '?' :: qr => some (qr.takeWhile (fun c => c ≠ '#'))
        | _ => none) = some s
      rw [List.cons_append]
      show some ((s ++ fSer fOpt).takeWhile (fun c => c ≠ '#')) = some s
      rw [takeWhile_append_all _ s _ hallq]
      cases fOpt with
      | some fr =>
        rw [show fSer (some fr) = '#' :: fr from rfl, List.takeWhile_cons,
          if_neg (by decide), List.append_nil]
      | none =>
        rw [show fSer (none : Option (List Char)) = [] from rfl]
        simp
    | none =>
      cases fOpt with
      | some fr => rfl
      | none => rfl
  · unfold fragOfAfter
    rw [hdrop]
    cases qOpt with
    | some s =>
      have hallq : ∀ c ∈ s, (fun c => decide (¬ c = '#')) c = true :=
        fun c hc => decide_eq_true (fun he => hq s rfl (he ▸ hc))
      rw [show qSer (some s) ++ fSer fOpt = '?' :: (s ++ fSer fOpt) from
        List.cons_append '?' s (fSer fOpt)]
      show (match (s ++ fSer fOpt).dropWhile (fun c => c ≠ '#') with
        | '#' :: f => some f
        | _ => none) = fOpt
      rw [dropWhile_append_all _ s _ hallq]
      cases fOpt with
      | some fr =>
        rw [show fSer (some fr) = '#' :: fr from rfl, List.dropWhile_cons,
          if_neg (by decide)]
        rfl
      | none =>
        rw [show fSer (none : Option (List Char)) = [] from rfl,
          List.dropWhile_nil]
    | none =>
      cases fOpt with
      | some fr => rfl
      | none => rfl

/-! ### Parsing establishes well-formedness -/

theorem parseAuthority_sub (auth : List Char) :
    (∀ s, (parseAuthority auth).1 = some s → ∀ c ∈ s, c ∈ auth) ∧
      (∀ c ∈ (parseAuthority auth).2, c ∈ auth) ∧
      '@' ∉ (parseAuthority auth).2 := by
  unfold parseAuthority
  cases hsp : splitAtLast '@' auth with
  | none =>
    refine ⟨fun s hs => Option.noConfusion hs, fun c hc => hc, ?_⟩
    intro hc
    have := splitAtLast_isSome_of_mem '@' auth hc
    rw [hsp] at this
    cases this
  | some p =>
    obtain ⟨b, a⟩ := p
    obtain ⟨heq, hnot⟩ := splitAtLast_eq '@' auth b a hsp
    dsimp only
    refine ⟨?_, ?_, hnot⟩
    · intro s hs c hc
      injection hs with hs'
      subst hs'
      rw [heq]
      exact List.mem_append_left _ hc
    · intro c hc
      rw [heq]
      exact List.mem_append_right _ (List.mem_cons_of_mem _ hc)

theorem parseHostPort_sub (hp host digits : List Char)
    (h : parseHostPort hp = some (host, digits)) :
    (∀ c ∈ host, c ∈ hp) ∧ (∀ c ∈ digits, c ∈ hp) ∧
      ((∃ inside, host = '[' :: (inside ++ [']']) ∧ ']' ∉ inside) ∨
        (':' ∉ host ∧ host.head? ≠ some '[')) := by
  unfold parseHostPort at h
  split at h
  · rename_i hbr
    obtain ⟨tl, rfl⟩ : ∃ tl, hp = '[' :: tl := by
      cases hp with
      | nil => cases hbr
      | cons a b =>
        injection hbr with hb
        exact ⟨b, by rw [hb]⟩
    dsimp only [List.tail_cons] at h
    split at h
    · rename_i hrb
      have heqd := eq_cons_of_head? _ _ hrb
      have htail2 : ∀ c ∈ (tl.dropWhile (fun c => c ≠ ']')).tail, c ∈ tl :=
        fun c hc =>
          (List.dropWhile_sublist _).subset (List.mem_of_mem_tail hc)
      have hrbm : ']' ∈ tl := by
        have hmem : ']' ∈ tl.dropWhile (fun c => c ≠ ']') := by
          rw [heqd]
          exact List.mem_cons_self _ _
        exact (List.dropWhile_sublist _).subset hmem
      have hinside : ∀ c ∈ tl.takeWhile (fun c => c ≠ ']'), c ∈ tl :=
        fun c hc => (List.takeWhile_sublist _).subset hc
      have hnorb : ']' ∉ tl.takeWhile (fun c => c ≠ ']') := by
        intro hc
        exact mem_takeWhile_pred (fun c => c ≠ ']') tl ']' hc rfl
      have hhostm : ∀ c ∈ '[' :: (tl.takeWhile (fun c => c ≠ ']') ++ [']']),
          c ∈ '[' :: tl := by
        intro c hc
        rcases List.mem_cons.mp hc with hc1 | hc1
        · rw [hc1]
          exact List.mem_cons_self _ _
        · rcases List.mem_append.mp hc1 with hc2 | hc2
          · exact List.mem_cons_of_mem _ (hinside c hc2)
          · rw [List.mem_singleton] at hc2
            rw [hc2]
            exact List.mem_cons_of_mem _ hrbm
      split at h
      · injection h with h'
        injection h' with hh hdg
        subst hh
        subst hdg
        exact ⟨hhostm, fun c hc => absurd hc (List.not_mem_nil c),
          Or.inl ⟨_, rfl, hnorb⟩⟩
      · split at h
        · injection h with h'
          injection h' with hh hdg
          subst hh
          subst hdg
          refine ⟨hhostm, ?_, Or.inl ⟨_, rfl, hnorb⟩⟩
          intro c hc
          exact List.mem_cons_of_mem _
            (htail2 c (List.mem_of_mem_tail hc))
        · cases h
    · cases h
  · rename_i hbr
    dsimp only at h
    have hhostsub : ∀ c ∈ hp.takeWhile (fun c => c ≠ ':'), c ∈ hp :=
      fun c hc => (List.takeWhile_sublist _).subset hc
    have hnocolon : ':' ∉ hp.takeWhile (fun c => c ≠ ':') := by
      intro hc
      exact mem_takeWhile_pred (fun c => c ≠ ':') hp ':' hc rfl
    have hheadok : (hp.takeWhile (fun c => c ≠ ':')).head? ≠ some '[' := by
      cases htk : hp.takeWhile (fun c => c ≠ ':') with
      | nil => simp
      | cons a b =>
        have hha := head_of_takeWhile _ hp a b htk
        intro hcon
        injection hcon with hcon'
        subst hcon'
        exact hbr hha
    split at h
    · injection h with h'
      injection h' with hh hdg
      subst hh
      subst hdg
      refine ⟨hhostsub, ?_, Or.inr ⟨hnocolon, hheadok⟩⟩
      intro c hc
      exact (List.dropWhile_sublist _).subset (List.mem_of_mem_tail hc)
    · injection h with h'
      injection h' with hh hdg
      subst hh
      subst hdg
      exact ⟨hhostsub, fun c hc => absurd hc (List.not_mem_nil c),
        Or.inr ⟨hnocolon, hheadok⟩⟩

theorem pathOfAfter_wf (after : List Char)
    (hafter : ∀ c t, after = c :: t → isDelim c = true) :
    (pathOfAfter after).head? = some '/' ∧
      (∀ c ∈ pathOfAfter after, c ≠ '?' ∧ c ≠ '#') := by
  unfold pathOfAfter
  split
  · refine ⟨rfl, ?_⟩
    intro c hc
    rw [List.mem_singleton] at hc
    subst hc
    decide
  · rename_i hne
    constructor
    · obtain ⟨c, t, heq⟩ : ∃ c t,
          after.takeWhile (fun c => c ≠ '?' ∧ c ≠ '#') = c :: t := by
        cases htk : after.takeWhile (fun c => c ≠ '?' ∧ c ≠ '#') with
        | nil => exact absurd htk hne
        | cons a b => exact ⟨a, b, rfl⟩
      rw [heq]
      have hhead := head_of_takeWhile _ after c t heq
      obtain ⟨t', rfl⟩ : ∃ t', after = c :: t' := by
        cases after with
        | nil => cases hhead
        | cons a b =>
          injection hhead with hh
          exact ⟨b, by rw [hh]⟩
      have hdelim := hafter c t' rfl
      have hpred : c ≠ '?' ∧ c ≠ '#' :=
        mem_takeWhile_pred (fun c => c ≠ '?' ∧ c ≠ '#') (c :: t') c
          (by rw [heq]; exact List.mem_cons_self c t)
      simp only [isDelim, Bool.or_eq_true, decide_eq_true_eq] at hdelim
      rcases hdelim with (h1 | h1) | h1
      · rw [h1]
        rfl
      · exact absurd h1 hpred.1
      · exact absurd h1 hpred.2
    · intro c hc
      exact mem_takeWhile_pred (fun c => c ≠ '?' ∧ c ≠ '#') after c hc

theorem queryOfAfter_wf (after : List Char) :
    ∀ s, queryOfAfter after = some s → '#' ∉ s := by
  unfold queryOfAfter
  split
  · rename_i qr heqd
    intro s hs
    injection hs with hs'
    subst hs'
    intro hc
    exact mem_takeWhile_pred (fun c => c ≠ '#') qr '#' hc rfl
  · intro s hs
    cases hs

/-- Everything `parseUrlList` returns is well-formed. -/
theorem parse_wf (cs : List Char) (u : Url) (h : parseUrlList cs = some u) :
    WF u := by
  unfold parseUrlList at h
  dsimp only at h
  split at h
  · cases h
  · rename_i hTake3
    split at h
    · cases h
    · rename_i hschNe
      split at h
      · cases h
      · rename_i hschAll
        split at h
        · cases h
        · rename_i hd hHP
          obtain ⟨host, digits⟩ := hd
          dsimp only at h hHP
          have hauth := parseAuthority_sub
            ((List.dropWhile (fun c => c ≠ ':') cs).drop 3 |>.takeWhile
              (fun c => isDelim c = false))
          have hauthd : ∀ c ∈ ((List.dropWhile (fun c => c ≠ ':') cs).drop 3
              |>.takeWhile (fun c => isDelim c = false)), isDelim c = false :=
            fun c hc => mem_takeWhile_pred (fun c => isDelim c = false)
              ((List.dropWhile (fun c => c ≠ ':') cs).drop 3) c hc
          have hHPsub := parseHostPort_sub _ host digits hHP
          have hafterD : ∀ c t, ((List.dropWhile (fun c => c ≠ ':') cs).drop 3
              |>.dropWhile (fun c => isDelim c = false)) = c :: t →
              isDelim c = true := by
            intro c t heq
            have hnd := dropWhile_head_pred (fun c => isDelim c = false)
              ((List.dropWhile (fun c => c ≠ ':') cs).drop 3) c t heq
            cases hic : isDelim c
            · exact absurd hic hnd
            · rfl
          have hpath := pathOfAfter_wf _ hafterD
          have hquery := queryOfAfter_wf
            ((List.dropWhile (fun c => c ≠ ':') cs).drop 3 |>.dropWhile
              (fun c => isDelim c = false))
          have hhostD : ∀ c ∈ host, isDelim c = false := by
            intro c hc
            exact hauthd c (hauth.2.1 c (hHPsub.1 c hc))
          have hhostAt : '@' ∉ host := fun hc => hauth.2.2 (hHPsub.1 '@' hc)
          split at h
          · cases h
          · rename_i hhostNe
            split at h
            · cases h
            · rename_i hdigAll
              split at h
              · injection h with h'
                subst h'
                exact ⟨hschNe, not_not.mp hschAll,
                  fun s hs c hc => hauthd c (hauth.1 s hs c hc),
                  hhostNe, hhostD, hhostAt,
                  hHPsub.2.2, fun d hd => Option.noConfusion hd,
                  hpath.1, hpath.2, hquery⟩
              · rename_i hdigNe
                split at h
                · cases h
                · rename_i hbig
                  split at h
                  · injection h with h'
                    subst h'
                    exact ⟨hschNe, not_not.mp hschAll,
                      fun s hs c hc => hauthd c (hauth.1 s hs c hc),
                      hhostNe, hhostD, hhostAt,
                      hHPsub.2.2, fun d hd => Option.noConfusion hd,
                      hpath.1, hpath.2, hquery⟩
                  · rename_i hdef
                    injection h with h'
                    subst h'
                    refine ⟨hschNe, not_not.mp hschAll,
                      fun s hs c hc => hauthd c (hauth.1 s hs c hc),
                      hhostNe, hhostD, hhostAt,
                      hHPsub.2.2, ?_, hpath.1, hpath.2, hquery⟩
                    intro d hd
                    injection hd with hd'
                    subst hd'
                    exact ⟨hdigNe, not_not.mp hdigAll, not_lt.mp hbig, hdef⟩

/-- Round trip: parsing a serialized well-formed URL recovers it exactly. -/
theorem parse_serialize (u : Url) (h : WF u) :
    parseUrlList (serializeUrl u) = some u := by
  obtain ⟨sch, ui, host, port, path, q, f⟩ := u
  obtain ⟨h1, h2, h3, h4, h5, h6, h7, h8, h9, h10, h11⟩ := h
  dsimp only at h1 h2 h3 h4 h5 h6 h7 h8 h9 h10 h11
  have hpne : path ≠ [] := by
    intro hp
    rw [hp] at h9
    cases h9
  have hPR : portSer port = [] ∨ ∃ d, portSer port = ':' :: d := by
    cases port <;> simp [portSer]
  have hPortD : ∀ c ∈ portSer port, isDelim c = false := by
    cases port with
    | none => intro c hc; cases hc
    | some d =>
      intro c hc
      rw [show portSer (some d) = ':' :: d from rfl] at hc
      rcases List.mem_cons.mp hc with hcc | hcc
      · rw [hcc]; decide
      · exact digit_not_delim c (List.all_eq_true.mp (h8 d rfl).2.1 c hcc)
  have hPortAt : '@' ∉ portSer port := by
    cases port with
    | none => intro hc; cases hc
    | some d =>
      intro hc
      rw [show portSer (some d) = ':' :: d from rfl] at hc
      rcases List.mem_cons.mp hc with hcc | hcc
      · cases hcc
      · exact digit_ne_at '@' (List.all_eq_true.mp (h8 d rfl).2.1 '@' hcc) rfl
  have hUiD : ∀ c ∈ uiSer ui, isDelim c = false := by
    cases ui with
    | none => intro c hc; cases hc
    | some s =>
      intro c hc
      rw [show uiSer (some s) = s ++ ['@'] from rfl] at hc
      rcases List.mem_append.mp hc with hcc | hcc
      · exact h3 s rfl c hcc
      · rw [List.mem_singleton] at hcc
        rw [hcc]
        decide
  have hAuthD : ∀ c ∈ uiSer ui ++ (host ++ portSer port), isDelim c = false := by
    intro c hc
    rcases List.mem_append.mp hc with hcc | hcc
    · exact hUiD c hcc
    · rcases List.mem_append.mp hcc with hc2 | hc2
      · exact h5 c hc2
      · exact hPortD c hc2
  have hAtHp : '@' ∉ host ++ portSer port := by
    intro hc
    rcases List.mem_append.mp hc with hcc | hcc
    · exact h6 hcc
    · exact hPortAt hcc
  have hPQhead : ∀ c t, path ++ (qSer q ++ fSer f) = c :: t →
      isDelim c = true := by
    obtain ⟨pt, rfl⟩ : ∃ pt, path = '/' :: pt := by
      cases path with
      | nil => cases h9
      | cons a b =>
        refine ⟨b, ?_⟩
        injection h9 with h9'
        rw [h9']
    intro c t hct
    rw [List.cons_append] at hct
    injection hct with hc1 _
    rw [← hc1]
    decide
  have hAuthEq : parseAuthority (uiSer ui ++ (host ++ portSer port)) =
      (ui, host ++ portSer port) := by
    cases ui with
    | some s =>
      rw [show uiSer (some s) = s ++ ['@'] from rfl]
      exact parseAuthority_ui s _ hAtHp
    | none =>
      rw [show uiSer (none : Option (List Char)) = [] from rfl,
        List.nil_append]
      exact parseAuthority_no_ui _ hAtHp
  have hHPEq : parseHostPort (host ++ portSer port) =
      some (host, (portSer port).tail) := by
    rcases h7 with ⟨inside, hhost, hinb⟩ | ⟨hcol, hhd⟩
    · rw [hhost]
      exact parseHostPort_bracket inside _ hinb hPR
    · exact parseHostPort_plain host _ h4 hcol hhd hPR
  obtain ⟨hPa, hQa, hFa⟩ := afterParts_spec path q f hpne h10 h11
  obtain ⟨hTW, hDW⟩ := parse_scheme_split sch
    ('/' :: '/' :: (uiSer ui ++ (host ++ (portSer port ++
      (path ++ (qSer q ++ fSer f)))))) h2
  have hassocT : (uiSer ui ++ (host ++ (portSer port ++
      (path ++ (qSer q ++ fSer f))))).takeWhile (fun c => isDelim c = false) =
      uiSer ui ++ (host ++ portSer port) := by
    have he : uiSer ui ++ (host ++ (portSer port ++ (path ++ (qSer q ++ fSer f)))) =
        (uiSer ui ++ (host ++ portSer port)) ++ (path ++ (qSer q ++ fSer f)) := by
      simp [List.append_assoc]
    rw [he]
    exact (split_nondelim _ _ hAuthD hPQhead).1
  have hassocD : (uiSer ui ++ (host ++ (portSer port ++
      (path ++ (qSer q ++ fSer f))))).dropWhile (fun c => isDelim c = false) =
      path ++ (qSer q ++ fSer f) := by
    have he : uiSer ui ++ (host ++ (portSer port ++ (path ++ (qSer q ++ fSer f)))) =
        (uiSer ui ++ (host ++ portSer port)) ++ (path ++ (qSer q ++ fSer f)) := by
      simp [List.append_assoc]
    rw [he]
    exact (split_nondelim _ _ hAuthD hPQhead).2
  show parseUrlList (sch ++ ':' :: '/' :: '/' ::
      (uiSer ui ++ (host ++ (portSer port ++ (path ++ (qSer q ++ fSer f)))))) =
    some ⟨sch, ui, host, port, path, q, f⟩
  unfold parseUrlList
  try dsimp only
  rw [hTW, hDW]
  rw [show ((':' :: '/' :: '/' :: (uiSer ui ++ (host ++ (portSer port ++
      (path ++ (qSer q ++ fSer f)))))).take 3) = [':', '/', '/'] from rfl]
  rw [if_neg (by simp)]
  rw [show ((':' :: '/' :: '/' :: (uiSer ui ++ (host ++ (portSer port ++
      (path ++ (qSer q ++ fSer f)))))).drop 3) =
    uiSer ui ++ (host ++ (portSer port ++ (path ++ (qSer q ++ fSer f))))
    from rfl]
  rw [if_neg h1, if_neg (not_not_intro h2), hassocT, hassocD, hAuthEq]
  try dsimp only
  rw [hHPEq]
  try dsimp only
  rw [if_neg h4]
  cases port with
  | none =>
    rw [show (portSer (none : Option (List Char))).tail = [] from rfl]
    rw [if_neg (by decide), if_pos rfl, hPa, hQa, hFa]
  | some d =>
    rw [show (portSer (some d)).tail = d from rfl]
    obtain ⟨hd1, hd2, hd3, hd4⟩ := h8 d rfl
    rw [if_neg (not_not_intro hd2), if_neg hd1,
      if_neg (not_lt.mpr hd3), if_neg hd4, hPa, hQa, hFa]

/-! ### The two URL normalizers

`normalizeWsUrl` (offscreen.js 104-117) parses the input, requires a `ws:` or
`wss:` protocol and an explicit (non-default) port, resets path/search/hash,
serializes and strips one trailing slash.  `normalizeUrl` (background.js
283-297) parses, clears the hash, rewrites the loopback hostnames `127.0.0.1`
and `::1` to `localhost`, and trims one trailing slash off a non-root path. -/

/-- `.replace(RegExp("/$"), "")` on a serialized URL: drop one trailing
slash. -/
def stripOneTrailingSlash (cs : List Char) : List Char :=
  if cs.getLast? = some '/' then cs.dropLast else cs

/-- offscreen.js `normalizeWsUrl`, over the URL model. -/
def normalizeWsUrlList (cs : List Char) : Option (List Char) :=
  match parseUrlList cs with
  | none => none
  | some u =>
    if u.scheme ≠ ("ws").data ∧ u.scheme ≠ ("wss").data then none
    else if u.port = none then none
    else some (stripOneTrailingSlash (serializeUrl
      { u with path := ['/'], query := none, frag := none }))

/-- `u.pathname.slice(0, -1)` guarded by `endsWith("/") && length > 1`. -/
def trimSlash (p : List Char) : List Char :=
  if p.getLast? = some '/' ∧ 1 < p.length then p.dropLast else p

/-- The loopback-hostname rewrite in background.js `normalizeUrl`. -/
def rewriteHost (h : List Char) : List Char :=
  if h = ("127.0.0.1").data ∨ h = ("::1").data then ("localhost").data else h

/-- background.js `normalizeUrl`, over the URL model. -/
def normalizeUrlList (cs : List Char) : Option (List Char) :=
  match parseUrlList cs with
  | none => none
  | some u => some (serializeUrl
      { u with
        frag := none
        host := rewriteHost u.host
        path := trimSlash u.path })

/-- String-level wrapper for offscreen.js `normalizeWsUrl`. -/
def normalizeWsUrl (s : String) : Option String :=
  (normalizeWsUrlList s.data).map String.mk

/-- String-level wrapper for background.js `normalizeUrl`. -/
def normalizeUrl (s : String) : Option String :=
  (normalizeUrlList s.data).map String.mk

/-- `a.startsWith(b)` on character lists. -/
def startsWithList : List Char → List Char → Bool
  | _, [] => true
  | [], _ :: _ => false
  | a :: s, b :: t => a = b && startsWithList s t

/-- The tab comparison of background.js `resolveTabForUrl` (lines 369-371):
both URLs are normalized, then compared for equality (`match === "exact"`,
modelled by `exactMode = true`) or by `tabNorm.startsWith(targetNorm)`. -/
def tabMatches (exactMode : Bool) (tabUrl target : List Char) : Option Bool :=
  match normalizeUrlList tabUrl, normalizeUrlList target with
  | some tabN, some tN =>
    some (if exactMode then decide (tabN = tN) else startsWithList tabN tN)
  | _, _ => none

/-! ### Normalizer lemmas -/

theorem stripOneTrailingSlash_concat (X : List Char) :
    stripOneTrailingSlash (X ++ ['/']) = X := by
  unfold stripOneTrailingSlash
  rw [if_pos (by rw [List.getLast?_concat]), List.dropLast_concat]

/-- Serializing with root path, no query and no fragment appends exactly
`authority ++ "/"` to the scheme part. -/
theorem serialize_root (sch host : List Char) (ui port : Option (List Char)) :
    serializeUrl ⟨sch, ui, host, port, ['/'], none, none⟩ =
      (sch ++ ':' :: '/' :: '/' ::
        (uiSer ui ++ (host ++ portSer port))) ++ ['/'] := by
  show sch ++ ':' :: '/' :: '/' :: (uiSer ui ++ (host ++ (portSer port ++
      (['/'] ++ (qSer none ++ fSer none))))) = _
  rw [show qSer none = [] from rfl, show fSer none = [] from rfl]
  simp [List.append_assoc]

/-- Parsing `scheme://userinfo@host:port` (no path at all) yields the record
with root path and no query/fragment. -/
theorem parse_serialize_auth (u : Url) (h : WF u) :
    parseUrlList (u.scheme ++ ':' :: '/' :: '/' ::
      (uiSer u.userinfo ++ (u.host ++ portSer u.port))) =
      some { u with path := ['/'], query := none, frag := none } := by
  obtain ⟨sch, ui, host, port, path, q, f⟩ := u
  obtain ⟨h1, h2, h3, h4, h5, h6, h7, h8, h9, h10, h11⟩ := h
  dsimp only at h1 h2 h3 h4 h5 h6 h7 h8 h9 h10 h11 ⊢
  have hPR : portSer port = [] ∨ ∃ d, portSer port = ':' :: d := by
    cases port <;> simp [portSer]
  have hPortD : ∀ c ∈ portSer port, isDelim c = false := by
    cases port with
    | none => intro c hc; cases hc
    | some d =>
      intro c hc
      rw [show portSer (some d) = ':' :: d from rfl] at hc
      rcases List.mem_cons.mp hc with hcc | hcc
      · rw [hcc]; decide
      · exact digit_not_delim c (List.all_eq_true.mp (h8 d rfl).2.1 c hcc)
  have hPortAt : '@' ∉ portSer port := by
    cases port with
    | none => intro hc; cases hc
    | some d =>
      intro hc
      rw [show portSer (some d) = ':' :: d from rfl] at hc
      rcases List.mem_cons.mp hc with hcc | hcc
      · cases hcc
      · exact digit_ne_at '@' (List.all_eq_true.mp (h8 d rfl).2.1 '@' hcc) rfl
  have hUiD : ∀ c ∈ uiSer ui, isDelim c = false := by
    cases ui with
    | none => intro c hc; cases hc
    | some s =>
      intro c hc
      rw [show uiSer (some s) = s ++ ['@'] from rfl] at hc
      rcases List.mem_append.mp hc with hcc | hcc
      · exact h3 s rfl c hcc
      · rw [List.mem_singleton] at hcc
        rw [hcc]
        decide
  have hAuthD : ∀ c ∈ uiSer ui ++ (host ++ portSer port),
      isDelim c = false := by
    intro c hc
    rcases List.mem_append.mp hc with hcc | hcc
    · exact hUiD c hcc
    · rcases List.mem_append.mp hcc with hc2 | hc2
      · exact h5 c hc2
      · exact hPortD c hc2
  have hAtHp : '@' ∉ host ++ portSer port := by
    intro hc
    rcases List.mem_append.mp hc with hcc | hcc
    · exact h6 hcc
    · exact hPortAt hcc
  have hAuthEq : parseAuthority (uiSer ui ++ (host ++ portSer port)) =
      (ui, host ++ portSer port) := by
    cases ui with
    | some s =>
      rw [show uiSer (some s) = s ++ ['@'] from rfl]
      exact parseAuthority_ui s _ hAtHp
    | none =>
      rw [show uiSer (none : Option (List Char)) = [] from rfl,
        List.nil_append]
      exact parseAuthority_no_ui _ hAtHp
  have hHPEq : parseHostPort (host ++ portSer port) =
      some (host, (portSer port).tail) := by
    rcases h7 with ⟨inside, hhost, hinb⟩ | ⟨hcol, hhd⟩
    · rw [hhost]
      exact parseHostPort_bracket inside _ hinb hPR
    · exact parseHostPort_plain host _ h4 hcol hhd hPR
  obtain ⟨hTW, hDW⟩ := parse_scheme_split sch
    ('/' :: '/' :: (uiSer ui ++ (host ++ portSer port))) h2
  have hassocT : (uiSer ui ++ (host ++ portSer port)).takeWhile
      (fun c => isDelim c = false) = uiSer ui ++ (host ++ portSer port) :=
    takeWhile_all _ _ (fun c hc => decide_eq_true (hAuthD c hc))
  have hassocD : (uiSer ui ++ (host ++ portSer port)).dropWhile
      (fun c => isDelim c = false) = [] :=
    dropWhile_all _ _ (fun c hc => decide_eq_true (hAuthD c hc))
  show parseUrlList (sch ++ ':' :: '/' :: '/' ::
      (uiSer ui ++ (host ++ portSer port))) =
    some ⟨sch, ui, host, port, ['/'], none, none⟩
  unfold parseUrlList
  try dsimp only
  rw [hTW, hDW]
  rw [show ((':' :: '/' :: '/' ::
      (uiSer ui ++ (host ++ portSer port))).take 3) = [':', '/', '/']
    from rfl]
  rw [if_neg (by simp)]
  rw [show ((':' :: '/' :: '/' ::
      (uiSer ui ++ (host ++ portSer port))).drop 3) =
    uiSer ui ++ (host ++ portSer port) from rfl]
  rw [if_neg h1, if_neg (not_not_intro h2), hassocT, hassocD, hAuthEq]
  try dsimp only
  rw [hHPEq]
  try dsimp only
  rw [if_neg h4]
  rw [show pathOfAfter [] = ['/'] from rfl,
    show queryOfAfter [] = none from rfl,
    show fragOfAfter [] = none from rfl]
  cases port with
  | none =>
    rw [show (portSer (none : Option (List Char))).tail = [] from rfl]
    rw [if_neg (by decide), if_pos rfl]
  | some d =>
    rw [show (portSer (some d)).tail = d from rfl]
    obtain ⟨hd1, hd2, hd3, hd4⟩ := h8 d rfl
    rw [if_neg (not_not_intro hd2), if_neg hd1,
      if_neg (not_lt.mpr hd3), if_neg hd4]

/-- `normalizeWsUrl` maps its own kind of output (a well-formed URL serialized
without any path) to itself. -/
theorem normalizeWs_roundtrip (u : Url) (h : WF u)
    (hs : ¬ (u.scheme ≠ ("ws").data ∧ u.scheme ≠ ("wss").data))
    (hprt : ¬ u.port = none) :
    normalizeWsUrlList (u.scheme ++ ':' :: '/' :: '/' ::
      (uiSer u.userinfo ++ (u.host ++ portSer u.port))) =
      some (u.scheme ++ ':' :: '/' :: '/' ::
        (uiSer u.userinfo ++ (u.host ++ portSer u.port))) := by
  have hpa := parse_serialize_auth u h
  obtain ⟨sch, ui, host, port, path, q, f⟩ := u
  dsimp only at hs hprt hpa ⊢
  unfold normalizeWsUrlList
  rw [hpa]
  dsimp only
  rw [if_neg hs, if_neg hprt]
  rw [serialize_root, stripOneTrailingSlash_concat]

theorem rewriteHost_idem (h : List Char) :
    rewriteHost (rewriteHost h) = rewriteHost h := by
  by_cases hc : h = ("127.0.0.1").data ∨ h = ("::1").data
  · have he : rewriteHost h = ("localhost").data := by
      unfold rewriteHost
      rw [if_pos hc]
    rw [he]
    rfl
  · have he : rewriteHost h = h := by
      unfold rewriteHost
      rw [if_neg hc]
    rw [he, he]

theorem rewriteHost_ne (h : List Char) (hne : h ≠ []) : rewriteHost h ≠ [] := by
  unfold rewriteHost
  split
  · decide
  · exact hne

theorem rewriteHost_delim (h : List Char)
    (hd : ∀ c ∈ h, isDelim c = false) :
    ∀ c ∈ rewriteHost h, isDelim c = false := by
  unfold rewriteHost
  split
  · decide
  · exact hd

theorem rewriteHost_at (h : List Char) (ha : '@' ∉ h) :
    '@' ∉ rewriteHost h := by
  unfold rewriteHost
  split
  · decide
  · exact ha

theorem rewriteHost_shape (h : List Char)
    (hs : (∃ inside, h = '[' :: (inside ++ [']']) ∧ ']' ∉ inside) ∨
      (':' ∉ h ∧ h.head? ≠ some '[')) :
    (∃ inside, rewriteHost h = '[' :: (inside ++ [']']) ∧ ']' ∉ inside) ∨
      (':' ∉ rewriteHost h ∧ (rewriteHost h).head? ≠ some '[') := by
  unfold rewriteHost
  split
  · exact Or.inr (by decide)
  · exact hs

theorem trimSlash_head (p : List Char) (h : p.head? = some '/') :
    (trimSlash p).head? = some '/' := by
  unfold trimSlash
  split
  · rename_i hcond
    cases p with
    | nil => cases h
    | cons a t =>
      cases t with
      | nil =>
        exfalso
        have hlen := hcond.2
        simp at hlen
      | cons b t2 => exact h
  · exact h

theorem trimSlash_subset (p : List Char) (c : Char) (hc : c ∈ trimSlash p) :
    c ∈ p := by
  unfold trimSlash at hc
  split at hc
  · exact (List.dropLast_sublist p).subset hc
  · exact hc

theorem startsWithList_refl (l : List Char) : startsWithList l l = true := by
  induction l with
  | nil => rfl
  | cons a t ih => simp [startsWithList, ih]

/-- **C8, counterexample.**  The background page's `normalizeUrl` is not
idempotent: it trims only one trailing slash, so a path ending in `//` loses
one slash per application and the normal form of a normal form differs. -/
theorem c8_normalize_counterexample :
    normalizeUrl (("http://h/a//")) = some (("http://h/a/")) ∧
    normalizeUrl (("http://h/a/")) = some (("http://h/a")) ∧
    (("http://h/a/") : String) ≠ (("http://h/a") : String) := by
  refine ⟨rfl, rfl, by decide⟩

/-- **C8, amended.**  The supervisor's WebSocket-URL normalizer is idempotent:
whatever it returns is a fixed point.  The background page's HTTP normalizer is
idempotent only on inputs whose path, after trimming one trailing slash, does
not still end in a slash (in particular it is not idempotent on paths ending in
`//`). -/
theorem c8_normalize_idem :
    (∀ cs out : List Char, normalizeWsUrlList cs = some out →
      normalizeWsUrlList out = some out) ∧
    (∀ (cs : List Char) (u : Url) (out : List Char),
      parseUrlList cs = some u →
      ¬ ((trimSlash u.path).getLast? = some '/' ∧
        1 < (trimSlash u.path).length) →
      normalizeUrlList cs = some out →
      normalizeUrlList out = some out) := by
  constructor
  · intro cs out h
    unfold normalizeWsUrlList at h
    cases hp : parseUrlList cs with
    | none =>
      rw [hp] at h
      cases h
    | some u =>
      rw [hp] at h
      dsimp only at h
      have hw := parse_wf cs u hp
      split at h
      · cases h
      · rename_i hs
        split at h
        · cases h
        · rename_i hprt
          injection h with h2
          subst h2
          rw [serialize_root, stripOneTrailingSlash_concat]
          exact normalizeWs_roundtrip u hw hs hprt
  · intro cs u out hp htrim hn
    have hw := parse_wf cs u hp
    obtain ⟨sch, ui, host, port, path, q, f⟩ := u
    obtain ⟨h1, h2, h3, h4, h5, h6, h7, h8, h9, h10, h11⟩ := hw
    dsimp only at h1 h2 h3 h4 h5 h6 h7 h8 h9 h10 h11 htrim
    unfold normalizeUrlList at hn
    rw [hp] at hn
    dsimp only at hn
    injection hn with hn2
    subst hn2
    have hw2 : WF (Url.mk sch ui (rewriteHost host) port (trimSlash path)
        q none) :=
      ⟨h1, h2, h3, rewriteHost_ne host h4, rewriteHost_delim host h5,
        rewriteHost_at host h6, rewriteHost_shape host h7, h8,
        trimSlash_head path h9,
        fun c hc => h10 c (trimSlash_subset path c hc), h11⟩
    unfold normalizeUrlList
    rw [parse_serialize _ hw2]
    dsimp only
    rw [rewriteHost_idem host]
    rw [show trimSlash (trimSlash path) =
      (if (trimSlash path).getLast? = some '/' ∧ 1 < (trimSlash path).length
        then (trimSlash path).dropLast else trimSlash path) from rfl]
    rw [if_neg htrim]

/-- Closed instances of the two idempotence statements of the amended C8. -/
theorem c8_normalize_idem_witness :
    normalizeWsUrlList (("ws://h:8081/x?a#b").data) =
      some (("ws://h:8081").data) ∧
    normalizeWsUrlList (("ws://h:8081").data) = some (("ws://h:8081").data) ∧
    normalizeUrlList (("http://h/a/").data) = some (("http://h/a").data) ∧
    normalizeUrlList (("http://h/a").data) = some (("http://h/a").data) :=
  ⟨rfl,
   c8_normalize_idem.1 (("ws://h:8081/x?a#b").data) (("ws://h:8081").data) rfl,
   rfl,
   c8_normalize_idem.2 (("http://h/a/").data)
     ⟨("http").data, none, ("h").data, none, ("/a/").data, none, none⟩
     (("http://h/a").data) rfl (by decide) rfl⟩

/-- **C10, counterexample.**  The `::1` rewrite is dead code: for an IPv6
loopback URL the hostname is the bracketed `[::1]`, which the comparison
`host === "::1"` never matches, so `http://[::1]:3000/app` is not conflated
with `http://localhost:3000/app` under either matching mode. -/
theorem c10_loopback_counterexample :
    normalizeUrlList (("http://[::1]:3000/app").data) =
      some (("http://[::1]:3000/app").data) ∧
    tabMatches true (("http://[::1]:3000/app").data)
      (("http://localhost:3000/app").data) = some false ∧
    tabMatches false (("http://[::1]:3000/app").data)
      (("http://localhost:3000/app").data) = some false := by
  refine ⟨rfl, rfl, rfl⟩

/-- **C10, amended.**  Loopback conflation holds for `127.0.0.1`: every
well-formed URL whose host is `127.0.0.1` normalizes to exactly the same
string as its `localhost` twin, so a tab at either URL is matched by a target
at the other under both exact and prefix-style matching.  (For `::1` the
rewrite never fires; see the counterexample.) -/
theorem c10_loopback_conflation (u : Url) (h : WF u)
    (hhost : u.host = ("127.0.0.1").data) :
    ∃ nrm,
      normalizeUrlList (serializeUrl u) = some nrm ∧
      normalizeUrlList (serializeUrl { u with host := ("localhost").data }) =
        some nrm ∧
      tabMatches true (serializeUrl u)
        (serializeUrl { u with host := ("localhost").data }) = some true ∧
      tabMatches false (serializeUrl u)
        (serializeUrl { u with host := ("localhost").data }) = some true := by
  obtain ⟨sch, ui, host, port, path, q, f⟩ := u
  dsimp only at hhost
  subst hhost
  obtain ⟨h1, h2, h3, h4, h5, h6, h7, h8, h9, h10, h11⟩ := h
  dsimp only at h1 h2 h3 h4 h5 h6 h7 h8 h9 h10 h11
  have hW1 : WF (Url.mk sch ui (("127.0.0.1").data) port path q f) :=
    ⟨h1, h2, h3, h4, h5, h6, h7, h8, h9, h10, h11⟩
  have hW2 : WF (Url.mk sch ui (("localhost").data) port path q f) :=
    ⟨h1, h2, h3,
      (by decide : ("localhost").data ≠ []),
      (by decide : ∀ c ∈ ("localhost").data, isDelim c = false),
      (by decide : '@' ∉ ("localhost").data),
      Or.inr (by decide : ':' ∉ ("localhost").data ∧
        (("localhost").data).head? ≠ some '['),
      h8, h9, h10, h11⟩
  have hn1 : normalizeUrlList (serializeUrl
      (Url.mk sch ui (("127.0.0.1").data) port path q f)) =
      some (serializeUrl (Url.mk sch ui (("localhost").data) port
        (trimSlash path) q none)) := by
    unfold normalizeUrlList
    rw [parse_serialize _ hW1]
    dsimp only
    rw [show rewriteHost (("127.0.0.1").data) = ("localhost").data from rfl]
  have hn2 : normalizeUrlList (serializeUrl
      (Url.mk sch ui (("localhost").data) port path q f)) =
      some (serializeUrl (Url.mk sch ui (("localhost").data) port
        (trimSlash path) q none)) := by
    unfold normalizeUrlList
    rw [parse_serialize _ hW2]
    dsimp only
    rw [show rewriteHost (("localhost").data) = ("localhost").data from rfl]
  refine ⟨_, hn1, hn2, ?_, ?_⟩
  · unfold tabMatches
    rw [hn1, hn2]
    dsimp only
    rw [if_pos rfl, decide_eq_true rfl]
  · unfold tabMatches
    rw [hn1, hn2]
    dsimp only
    rw [if_neg (by decide), startsWithList_refl]

/-- Closed instance of the amended C10 at `http://127.0.0.1:3000/app` vs
`http://localhost:3000/app`. -/
theorem c10_loopback_conflation_witness :
    ∃ nrm,
      normalizeUrlList (("http://127.0.0.1:3000/app").data) = some nrm ∧
      normalizeUrlList (("http://localhost:3000/app").data) = some nrm ∧
      tabMatches true (("http://127.0.0.1:3000/app").data)
        (("http://localhost:3000/app").data) = some true ∧
      tabMatches false (("http://127.0.0.1:3000/app").data)
        (("http://localhost:3000/app").data) = some true :=
  c10_loopback_conflation
    ⟨("http").data, none, ("127.0.0.1").data, some (("3000").data),
      ("/app").data, none, none⟩
    ⟨by decide, by decide, fun s hs => Option.noConfusion hs, by decide,
      by decide, by decide, Or.inr (by decide),
      (fun d hd => by
        injection hd with hd2
        subst hd2
        exact ⟨by decide, by decide, by decide, by decide⟩),
      rfl, by decide, fun s hs => Option.noConfusion hs⟩
    rfl

end UrlModel
